import Mathlib

/-!
Verification of the string case-conversion utilities of this repository.

The embedding follows the JavaScript sources:
  * `refined_prompt.js` : Unicode-aware `toCamelCase` and `toDotCase`;
  * the chain-prompt file : `toKebabCase`;
  * `few_shot_prompt.js` : a simple `toCamelCase`.

Strings are modelled as their lists of code points (`List Char`).  Each global
regex replacement of the sources is modelled as a left-to-right, non-overlapping
recursive scan, exactly as the regex engine applies it.  The Unicode character
classes used by the sources (`\p{Lu}`, `\p{Ll}`, `\p{L}`, `\p{N}`, `\p{M}`, `\s`)
are modelled on the Basic Latin range, and `normalize("NFKD")` by a table of the
canonical decompositions of the precomposed Latin-1 letters used throughout.
-/

namespace CaseConv

/-- Model of the regex class `\p{Lu}` (uppercase letter), on the Basic Latin range. -/
def isLu (c : Char) : Bool := decide (65 ≤ c.toNat) && decide (c.toNat ≤ 90)

/-- Model of the regex class `\p{Ll}` (lowercase letter), on the Basic Latin range. -/
def isLl (c : Char) : Bool := decide (97 ≤ c.toNat) && decide (c.toNat ≤ 122)

/-- Model of the regex classes `\p{N}` and `\p{Nd}` (digit), on the Basic Latin range. -/
def isN (c : Char) : Bool := decide (48 ≤ c.toNat) && decide (c.toNat ≤ 57)

/-- Model of the regex class `\p{L}` (any letter), on the Basic Latin range. -/
def isL (c : Char) : Bool := isLu c || isLl c

/-- A letter or digit: the characters the class `[^\p{L}\p{N}]` does not match. -/
def isAlnum (c : Char) : Bool := isL c || isN c

/-- Model of the regex class `\p{M}` (combining mark): the Combining Diacritical
Marks block U+0300 - U+036F, the range the NFKD table below produces. -/
def isM (c : Char) : Bool := decide (768 ≤ c.toNat) && decide (c.toNat ≤ 879)

/-- Model of the JavaScript whitespace class used by `trim()` and `\s`. -/
def isJsWs (c : Char) : Bool :=
  decide (c.toNat = 32) || decide (c.toNat = 9) || decide (c.toNat = 10) ||
  decide (c.toNat = 13) || decide (c.toNat = 11) || decide (c.toNat = 12) ||
  decide (c.toNat = 160)

/-- The explicit ASCII class `[^A-Za-z0-9]` of few_shot_prompt.js (complemented). -/
def isAsciiAlnum (c : Char) : Bool :=
  (decide (65 ≤ c.toNat) && decide (c.toNat ≤ 90)) ||
  (decide (97 ≤ c.toNat) && decide (c.toNat ≤ 122)) ||
  (decide (48 ≤ c.toNat) && decide (c.toNat ≤ 57))

/-- Model of JavaScript `toLowerCase()`, one character at a time (faithful on the
Basic Latin range, which is all the pipelines produce). -/
def jsToLower (c : Char) : Char := if isLu c then Char.ofNat (c.toNat + 32) else c

/-- Model of JavaScript `toUpperCase()` on one character, Basic Latin range. -/
def jsToUpper (c : Char) : Char := if isLl c then Char.ofNat (c.toNat - 32) else c

/-- Model of `normalize("NFKD")` for one character: the canonical decompositions of
the precomposed Latin-1 letters covered by this development; any other character is
left unchanged. -/
def nfkdChar (c : Char) : List Char :=
  if c.toNat = 0xE0 then [Char.ofNat 0x61, Char.ofNat 0x300]
  else if c.toNat = 0xE8 then [Char.ofNat 0x65, Char.ofNat 0x300]
  else if c.toNat = 0xE9 then [Char.ofNat 0x65, Char.ofNat 0x301]
  else if c.toNat = 0xEA then [Char.ofNat 0x65, Char.ofNat 0x302]
  else if c.toNat = 0xEB then [Char.ofNat 0x65, Char.ofNat 0x308]
  else if c.toNat = 0xEF then [Char.ofNat 0x69, Char.ofNat 0x308]
  else if c.toNat = 0xF6 then [Char.ofNat 0x6F, Char.ofNat 0x308]
  else if c.toNat = 0xFC then [Char.ofNat 0x75, Char.ofNat 0x308]
  else if c.toNat = 0xE7 then [Char.ofNat 0x63, Char.ofNat 0x327]
  else if c.toNat = 0xE5 then [Char.ofNat 0x61, Char.ofNat 0x30A]
  else if c.toNat = 0xC9 then [Char.ofNat 0x45, Char.ofNat 0x301]
  else if c.toNat = 0xC5 then [Char.ofNat 0x41, Char.ofNat 0x30A]
  else [c]

/-- `normalize("NFKD")` over a whole string. -/
def nfkd (l : List Char) : List Char := l.flatMap nfkdChar

/-- Model of `.replace(/\p{M}/gu, "")`: remove every combining mark. -/
def stripMarks (l : List Char) : List Char := l.filter (fun c => !isM c)

/-- Model of `String.prototype.trim`. -/
def jsTrim (l : List Char) : List Char :=
  ((l.dropWhile isJsWs).reverse.dropWhile isJsWs).reverse

/-- Generic model of a global regex replacement of a two-character pattern
`(X)(Y)` by `"$1" + sep + "$2"`: insert `sep` between adjacent characters `a b` with
`t a b`, scanning left to right without overlap, exactly as the regex engine does. -/
def sepPair (t : Char → Char → Bool) (sep : Char) : List Char → List Char
  | a :: b :: rest =>
    if t a b then a :: sep :: b :: sepPair t sep rest
    else a :: sepPair t sep (b :: rest)
  | l => l

/-- The pair matched by `([\p{Ll}\p{N}])([\p{Lu}])`. -/
def lowerUpperPair (a b : Char) : Bool := (isLl a || isN a) && isLu b

/-- The pair matched by `([\p{L}])([\p{N}])`. -/
def letterDigitPair (a b : Char) : Bool := isL a && isN b

/-- The pair matched by `([\p{N}])([\p{L}])`. -/
def digitLetterPair (a b : Char) : Bool := isN a && isL b

/-- Model of `.replace(/([\p{Ll}\p{N}])([\p{Lu}])/gu, "$1" + sep + "$2")`: insert `sep`
between a lowercase letter or digit and a following uppercase letter. -/
def sepLowerUpper (sep : Char) : List Char → List Char := sepPair lowerUpperPair sep

/-- Model of `.replace(/([\p{L}])([\p{N}])/gu, "$1" + sep + "$2")`. -/
def sepLetterDigit (sep : Char) : List Char → List Char := sepPair letterDigitPair sep

/-- Model of `.replace(/([\p{N}])([\p{L}])/gu, "$1" + sep + "$2")`. -/
def sepDigitLetter (sep : Char) : List Char → List Char := sepPair digitLetterPair sep

/-- Model of `.replace(/(\p{Lu}+)(\p{Lu}\p{Ll})/gu, "$1-$2")`.  The accumulator `run`
holds the pending run of uppercase letters (in reverse).  A match fires when a
lowercase letter arrives after a run of at least two uppercase letters: the hyphen is
placed before the last uppercase letter, and scanning resumes after the lowercase
letter, matching the engine's non-overlapping scan. -/
def sepAcronymAux (run : List Char) : List Char → List Char
  | [] => run.reverse
  | c :: cs =>
    if isLu c then sepAcronymAux (c :: run) cs
    else if isLl c && decide (2 ≤ run.length) then
      match run with
      | last :: firsts => firsts.reverse ++ '-' :: last :: c :: sepAcronymAux [] cs
      | [] => c :: sepAcronymAux [] cs
    else run.reverse ++ c :: sepAcronymAux [] cs

/-- The acronym boundary pass of `toKebabCase`. -/
def sepAcronym (l : List Char) : List Char := sepAcronymAux [] l

/-- Model of `.replace(/[^\p{L}\p{N}]+/gu, sep)`: every maximal run of characters that
are not letters or digits becomes a single `sep`.  `prevAlnum` is true at the start of
the string and after a letter or digit, so the separator is emitted exactly once per
run. -/
def collapseNonAlnumAux (sep : Char) (prevAlnum : Bool) : List Char → List Char
  | [] => []
  | c :: cs =>
    if isAlnum c then c :: collapseNonAlnumAux sep true cs
    else if prevAlnum then sep :: collapseNonAlnumAux sep false cs
    else collapseNonAlnumAux sep false cs

/-- The delimiter-collapsing pass. -/
def collapseNonAlnum (sep : Char) (l : List Char) : List Char :=
  collapseNonAlnumAux sep true l

/-- Model of the replacement of every hyphen run (regex "-+", global) by a single
hyphen. -/
def collapseHyphensAux (prevHyphen : Bool) : List Char → List Char
  | [] => []
  | c :: cs =>
    if c = '-' then
      if prevHyphen then collapseHyphensAux true cs
      else '-' :: collapseHyphensAux true cs
    else c :: collapseHyphensAux false cs

/-- The hyphen-run collapsing pass of `toKebabCase`. -/
def collapseHyphens (l : List Char) : List Char := collapseHyphensAux false l

/-- First half of the removal of edge hyphens (regex "^-|-$", global): drop a single
leading hyphen. -/
def dropLeadHyphen : List Char → List Char
  | c :: cs => if c = '-' then cs else c :: cs
  | [] => []

/-- Second half of the removal of edge hyphens: drop a single trailing hyphen. -/
def dropTrailHyphen (l : List Char) : List Char :=
  match l.getLast? with
  | some c => if c = '-' then l.dropLast else l
  | none => l

/-- Model of the removal of edge hyphens (after hyphen runs are collapsed, at most
one hyphen can sit at each end). -/
def trimEdgeHyphens (l : List Char) : List Char := dropTrailHyphen (dropLeadHyphen l)

/-- Split a list at the characters satisfying `p`, dropping empty pieces: the common
model of `split(/\s+/).filter(Boolean)` and `split(/[^A-Za-z0-9]+/).filter(Boolean)`.
`cur` is the current piece, accumulated in reverse. -/
def splitByAux (p : Char → Bool) (cur : List Char) : List Char → List (List Char)
  | [] => if cur = [] then [] else [cur.reverse]
  | c :: cs =>
    if p c then
      if cur = [] then splitByAux p [] cs
      else cur.reverse :: splitByAux p [] cs
    else splitByAux p (c :: cur) cs

/-- Model of `split(/\s+/).filter(Boolean)`. -/
def splitWsFilter (l : List Char) : List (List Char) := splitByAux isJsWs [] l

/-- The maximal letter/digit runs of a list (a proof-side normal form). -/
def alnumRuns (l : List Char) : List (List Char) :=
  splitByAux (fun c => !isAlnum c) [] l

/-- Model of `split(/[^A-Za-z0-9]+/).filter(Boolean)` of few_shot_prompt.js. -/
def splitNonAlnumAscii (l : List Char) : List (List Char) :=
  splitByAux (fun c => !isAsciiAlnum c) [] l

/-- Model of `Array.prototype.join` with a one-character separator. -/
def joinSep (sep : Char) : List (List Char) → List Char
  | [] => []
  | [w] => w
  | w :: ws => w ++ sep :: joinSep sep ws

/-- Model of `word.toLowerCase()`. -/
def lowerWord (w : List Char) : List Char := w.map jsToLower

/-- Model of the `capitalize` helper of refined_prompt.js `toCamelCase`: a word whose
first character is a digit keeps it and lowercases the rest; otherwise the first
character is uppercased and the rest lowercased. -/
def capitalize (w : List Char) : List Char :=
  match w with
  | [] => []
  | c :: cs => if isN c then c :: lowerWord cs else jsToUpper c :: lowerWord cs

/-- The camel rendering of refined_prompt.js: first word fully lowercased, later words
capitalized, no separator. -/
def renderCamel : List (List Char) → List Char
  | [] => []
  | w :: ws => lowerWord w ++ (ws.map capitalize).flatten

/-- The `toCamelCase` pipeline of refined_prompt.js on the code points of a string. -/
def camelCore (l : List Char) : List Char :=
  let t := jsTrim l
  if t = [] then []
  else
    let n := stripMarks (nfkd t)
    let b := sepDigitLetter ' ' (sepLetterDigit ' ' (sepLowerUpper ' ' n))
    renderCamel (splitWsFilter (collapseNonAlnum ' ' b))

/-- The `toDotCase` pipeline of refined_prompt.js on the code points of a string. -/
def dotCore (l : List Char) : List Char :=
  let t := jsTrim l
  if t = [] then []
  else
    let n := stripMarks (nfkd t)
    let b := sepDigitLetter ' ' (sepLetterDigit ' ' (sepLowerUpper ' ' n))
    let ws := splitWsFilter (collapseNonAlnum ' ' b)
    if ws = [] then [] else joinSep '.' (ws.map lowerWord)

/-- The `toKebabCase` pipeline of the chain-prompt file on the code points of a
string. -/
def kebabCore (l : List Char) : List Char :=
  let n := stripMarks (nfkd (jsTrim l))
  let b := sepAcronym (sepLowerUpper '-' n)
  lowerWord (trimEdgeHyphens (collapseHyphens (collapseNonAlnum '-' b)))

/-- Model of `lower.charAt(0).toUpperCase() + lower.slice(1)` of few_shot_prompt.js. -/
def capFirst (w : List Char) : List Char :=
  match w with
  | [] => []
  | c :: cs => jsToUpper c :: cs

/-- The multi-word rendering of few_shot_prompt.js: each word is fully lowercased
first, then every word but the first gets its first character uppercased. -/
def renderFewShot : List (List Char) → List Char
  | [] => []
  | w :: ws => lowerWord w ++ (ws.map (fun x => capFirst (lowerWord x))).flatten

/-- The `toCamelCase` pipeline of few_shot_prompt.js: ASCII split only; a single part
keeps its inner casing and only lowercases its first character. -/
def fewShotCamelCore (l : List Char) : List Char :=
  let t := jsTrim l
  if t = [] then []
  else
    match splitNonAlnumAscii t with
    | [] => []
    | [w] => (match w with | [] => [] | c :: cs => jsToLower c :: cs)
    | parts => renderFewShot parts

/-- Model of JavaScript `String.prototype.split` with a one-character separator:
split at every occurrence of the separator, keeping empty pieces. -/
def jsSplitChar (sep : Char) : List Char → List (List Char)
  | [] => [[]]
  | c :: cs =>
    let r := jsSplitChar sep cs
    if c = sep then [] :: r
    else (c :: r.headD []) :: r.tail

/-- No two adjacent characters of the list satisfy the pair condition `t`. -/
def pairFree (t : Char → Char → Bool) : List Char → Bool
  | a :: b :: rest => !t a b && pairFree t (b :: rest)
  | _ => true

/-- The pair "hyphen followed by hyphen". -/
def hyphenPair (a b : Char) : Bool := decide (a = '-') && decide (b = '-')

/-- The pair "uppercase letter followed by uppercase letter", the shape on which the
acronym rule can fire. -/
def upperUpperPair (a b : Char) : Bool := isLu a && isLu b

/-- The normalization stage shared by all pipelines: trim, NFKD, strip marks. -/
def normalizeText (l : List Char) : List Char := stripMarks (nfkd (jsTrim l))

/-- The boundary-marked text of the camel and dot pipelines. -/
def camelSepText (l : List Char) : List Char :=
  sepDigitLetter ' ' (sepLetterDigit ' ' (sepLowerUpper ' ' (normalizeText l)))

/-- The boundary-marked text of the kebab pipeline. -/
def kebabSepText (l : List Char) : List Char :=
  sepAcronym (sepLowerUpper '-' (normalizeText l))

/-- Abstraction of a list of characters that keeps letters and digits and forgets
which delimiter occupies each non-alphanumeric position.  The letter/digit runs of a
list depend only on this abstraction. -/
def abstAlnum (l : List Char) : List (Option Char) :=
  l.map (fun c => if isAlnum c then some c else none)

/-- The JavaScript values a conversion function can receive. -/
inductive JSValue where
  | str : String → JSValue
  | num : Int → JSValue
  | nullV : JSValue
  | undef : JSValue
  | boolV : Bool → JSValue
deriving DecidableEq

/-- Model of the JavaScript `typeof` operator on `JSValue`. -/
def jsTypeof : JSValue → String
  | .str _ => "string"
  | .num _ => "number"
  | .nullV => "object"
  | .undef => "undefined"
  | .boolV _ => "boolean"

/-- The text interpolated in the refined_prompt.js error messages:
`input === null ? "null" : typeof input`. -/
def receivedName (v : JSValue) : String :=
  if v = JSValue.nullV then ("null") else jsTypeof v

namespace RefinedPrompt

/-- refined_prompt.js `toCamelCase`: throws a TypeError on non-string input. -/
def toCamelCase : JSValue → Except String String
  | .str s => .ok ⟨camelCore s.data⟩
  | v => .error ("toCamelCase expected a string but received " ++ receivedName v)

/-- refined_prompt.js `toDotCase`: throws a TypeError on non-string input. -/
def toDotCase : JSValue → Except String String
  | .str s => .ok ⟨dotCore s.data⟩
  | v => .error ("toDotCase expected a string but received " ++ receivedName v)

/-- refined_prompt.js `toCamelCase` on a value already known to be a string. -/
def toCamelCaseStr (s : String) : String := ⟨camelCore s.data⟩

/-- refined_prompt.js `toDotCase` on a value already known to be a string. -/
def toDotCaseStr (s : String) : String := ⟨dotCore s.data⟩

end RefinedPrompt

namespace ChainPrompt

/-- The chain-prompt `toKebabCase`: throws a TypeError on non-string input. -/
def toKebabCase : JSValue → Except String String
  | .str s => .ok ⟨kebabCore s.data⟩
  | _ => .error ("toKebabCase: input must be a string")

/-- `toKebabCase` on a value already known to be a string. -/
def toKebabCaseStr (s : String) : String := ⟨kebabCore s.data⟩

end ChainPrompt

namespace FewShotPrompt

/-- few_shot_prompt.js `toCamelCase`: returns the empty string (no error) on
non-string input. -/
def toCamelCase : JSValue → Except String String
  | .str s => .ok ⟨fewShotCamelCore s.data⟩
  | _ => .ok ""

/-- few_shot_prompt.js `toCamelCase` on a value already known to be a string. -/
def toCamelCaseStr (s : String) : String := ⟨fewShotCamelCore s.data⟩

end FewShotPrompt

/-!  ## Basic character-class facts  -/

/-- Evaluating `Char.ofNat` below the surrogate range. -/
theorem toNat_ofNat_lt (n : Nat) (h : n < 55296) : (Char.ofNat n).toNat = n := by
  rw [Char.ofNat, dif_pos (Or.inl h)]
  rfl

theorem isLu_iff {c : Char} : isLu c = true ↔ 65 ≤ c.toNat ∧ c.toNat ≤ 90 := by
  simp [isLu]

theorem isLl_iff {c : Char} : isLl c = true ↔ 97 ≤ c.toNat ∧ c.toNat ≤ 122 := by
  simp [isLl]

theorem isN_iff {c : Char} : isN c = true ↔ 48 ≤ c.toNat ∧ c.toNat ≤ 57 := by
  simp [isN]

theorem isL_iff {c : Char} :
    isL c = true ↔ (65 ≤ c.toNat ∧ c.toNat ≤ 90) ∨ (97 ≤ c.toNat ∧ c.toNat ≤ 122) := by
  simp [isL, isLu, isLl]

theorem isAlnum_iff {c : Char} :
    isAlnum c = true ↔ (65 ≤ c.toNat ∧ c.toNat ≤ 90) ∨ (97 ≤ c.toNat ∧ c.toNat ≤ 122) ∨
      (48 ≤ c.toNat ∧ c.toNat ≤ 57) := by
  simp [isAlnum, isL, isLu, isLl, isN]
  tauto

theorem isM_iff {c : Char} : isM c = true ↔ 768 ≤ c.toNat ∧ c.toNat ≤ 879 := by
  simp [isM]

theorem isJsWs_iff {c : Char} :
    isJsWs c = true ↔ c.toNat = 32 ∨ c.toNat = 9 ∨ c.toNat = 10 ∨ c.toNat = 13 ∨
      c.toNat = 11 ∨ c.toNat = 12 ∨ c.toNat = 160 := by
  simp [isJsWs]
  tauto

theorem isAsciiAlnum_eq_isAlnum (c : Char) : isAsciiAlnum c = isAlnum c := by
  rcases hb : isAlnum c with _ | _
  · rw [Bool.eq_false_iff]
    intro hc
    rw [Bool.eq_false_iff] at hb
    apply hb
    simp only [isAsciiAlnum, Bool.or_eq_true, Bool.and_eq_true, decide_eq_true_eq] at hc
    exact isAlnum_iff.mpr (by omega)
  · rw [isAlnum_iff] at hb
    simp only [isAsciiAlnum, Bool.or_eq_true, Bool.and_eq_true, decide_eq_true_eq]
    omega

theorem not_isJsWs_of_isAlnum {c : Char} (h : isAlnum c = true) : isJsWs c = false := by
  rw [isAlnum_iff] at h
  rw [Bool.eq_false_iff]
  intro hw
  rw [isJsWs_iff] at hw
  omega

theorem not_isM_of_isAlnum {c : Char} (h : isAlnum c = true) : isM c = false := by
  rw [isAlnum_iff] at h
  rw [Bool.eq_false_iff]
  intro hw
  rw [isM_iff] at hw
  omega

theorem isAlnum_of_isLl {c : Char} (h : isLl c = true) : isAlnum c = true := by
  rw [isLl_iff] at h
  exact isAlnum_iff.mpr (by omega)

theorem isAlnum_of_isLu {c : Char} (h : isLu c = true) : isAlnum c = true := by
  rw [isLu_iff] at h
  exact isAlnum_iff.mpr (by omega)

theorem isAlnum_of_isN {c : Char} (h : isN c = true) : isAlnum c = true := by
  rw [isN_iff] at h
  exact isAlnum_iff.mpr (by omega)

theorem isN_eq_false_of_isL {c : Char} (h : isL c = true) : isN c = false := by
  rw [isL_iff] at h
  rw [Bool.eq_false_iff]
  intro hn
  rw [isN_iff] at hn
  omega

/-!  ## Facts about the casing maps  -/

theorem jsToLower_of_isLu {c : Char} (h : isLu c = true) :
    (jsToLower c).toNat = c.toNat + 32 := by
  rw [jsToLower, if_pos h, toNat_ofNat_lt]
  rw [isLu_iff] at h
  omega

theorem jsToLower_of_not_isLu {c : Char} (h : isLu c = false) : jsToLower c = c := by
  rw [jsToLower, if_neg]
  simp [h]

theorem isLl_jsToLower_of_isLu {c : Char} (h : isLu c = true) :
    isLl (jsToLower c) = true := by
  rw [isLl_iff, jsToLower_of_isLu h]
  rw [isLu_iff] at h
  omega

theorem jsToLower_of_isLl {c : Char} (h : isLl c = true) : jsToLower c = c := by
  apply jsToLower_of_not_isLu
  rw [isLl_iff] at h
  rw [Bool.eq_false_iff]
  intro hu
  rw [isLu_iff] at hu
  omega

theorem jsToLower_of_isN {c : Char} (h : isN c = true) : jsToLower c = c := by
  apply jsToLower_of_not_isLu
  rw [isN_iff] at h
  rw [Bool.eq_false_iff]
  intro hu
  rw [isLu_iff] at hu
  omega

/-- On a letter or digit, `jsToLower` lands in the lowercase letters or digits. -/
theorem lowerAlnum_of_isAlnum {c : Char} (h : isAlnum c = true) :
    (isLl (jsToLower c) || isN (jsToLower c)) = true := by
  rcases hu : isLu c with _ | _
  · rw [jsToLower_of_not_isLu hu]
    rw [isAlnum_iff] at h
    rw [Bool.or_eq_true, isLl_iff, isN_iff]
    have hu2 : ¬ (65 ≤ c.toNat ∧ c.toNat ≤ 90) := by
      intro hx
      rw [Bool.eq_false_iff] at hu
      exact hu (isLu_iff.mpr hx)
    omega
  · rw [Bool.or_eq_true]
    exact Or.inl (isLl_jsToLower_of_isLu hu)

theorem isAlnum_jsToLower {c : Char} (h : isAlnum c = true) :
    isAlnum (jsToLower c) = true := by
  have h2 := lowerAlnum_of_isAlnum h
  rw [Bool.or_eq_true] at h2
  rcases h2 with h2 | h2
  · exact isAlnum_of_isLl h2
  · exact isAlnum_of_isN h2

theorem jsToUpper_of_isLl {c : Char} (h : isLl c = true) :
    (jsToUpper c).toNat = c.toNat - 32 := by
  rw [jsToUpper, if_pos h, toNat_ofNat_lt]
  rw [isLl_iff] at h
  omega

theorem jsToUpper_of_not_isLl {c : Char} (h : isLl c = false) : jsToUpper c = c := by
  rw [jsToUpper, if_neg]
  simp [h]

theorem jsToUpper_of_isN {c : Char} (h : isN c = true) : jsToUpper c = c := by
  apply jsToUpper_of_not_isLl
  rw [isN_iff] at h
  rw [Bool.eq_false_iff]
  intro hu
  rw [isLl_iff] at hu
  omega

theorem isAlnum_jsToUpper {c : Char} (h : isAlnum c = true) :
    isAlnum (jsToUpper c) = true := by
  rcases hl : isLl c with _ | _
  · rw [jsToUpper_of_not_isLl hl]
    exact h
  · rw [isAlnum_iff, jsToUpper_of_isLl hl]
    rw [isLl_iff] at hl
    omega

/-!  ## Claim theorems on concrete scenarios  -/

/-- Claim C1 (counterexample): the few_shot_prompt.js `toCamelCase` does not raise on
a non-string argument — called with `null` it returns the empty string instead. -/
theorem fewshot_toCamelCase_null_no_throw :
    FewShotPrompt.toCamelCase JSValue.nullV = Except.ok "" := rfl

/-- Claim C1 (amended): `toKebabCase` and the refined `toCamelCase` and `toDotCase`
raise a TypeError on every non-string argument, before any normalization work; the
few_shot_prompt.js `toCamelCase` instead returns the empty string. -/
theorem nonstring_argument_behavior (v : JSValue) (h : ∀ s, v ≠ JSValue.str s) :
    RefinedPrompt.toCamelCase v =
      Except.error ("toCamelCase expected a string but received " ++ receivedName v) ∧
    RefinedPrompt.toDotCase v =
      Except.error ("toDotCase expected a string but received " ++ receivedName v) ∧
    ChainPrompt.toKebabCase v = Except.error ("toKebabCase: input must be a string") ∧
    FewShotPrompt.toCamelCase v = Except.ok "" := by
  cases v with
  | str s => exact absurd rfl (h s)
  | num n => exact ⟨rfl, rfl, rfl, rfl⟩
  | nullV => exact ⟨rfl, rfl, rfl, rfl⟩
  | undef => exact ⟨rfl, rfl, rfl, rfl⟩
  | boolV b => exact ⟨rfl, rfl, rfl, rfl⟩

/-- Witness for C1's amended theorem at the concrete non-string argument `123`. -/
theorem nonstring_argument_behavior_witness :
    RefinedPrompt.toCamelCase (JSValue.num 123) =
      Except.error ("toCamelCase expected a string but received " ++
        receivedName (JSValue.num 123)) ∧
    RefinedPrompt.toDotCase (JSValue.num 123) =
      Except.error ("toDotCase expected a string but received " ++
        receivedName (JSValue.num 123)) ∧
    ChainPrompt.toKebabCase (JSValue.num 123) =
      Except.error ("toKebabCase: input must be a string") ∧
    FewShotPrompt.toCamelCase (JSValue.num 123) = Except.ok "" :=
  nonstring_argument_behavior (JSValue.num 123) (fun _ hs => JSValue.noConfusion hs)

/-- Claim C2 (counterexample): `toCamelCase("XMLHttpRequest")` is `"xmlhttpRequest"`,
not `"xmlHttpRequest"`: the camel pipeline has no acronym-boundary rule. -/
theorem toCamelCase_XMLHttpRequest_counterexample :
    RefinedPrompt.toCamelCaseStr ("XMLHttpRequest") = "xmlhttpRequest" ∧
    RefinedPrompt.toCamelCaseStr ("XMLHttpRequest") ≠ "xmlHttpRequest" := by
  exact ⟨by decide, by decide⟩

/-- Claim C2 (amended): only `toKebabCase` applies the acronym-to-word boundary rule;
the camel and dot pipelines keep an acronym attached to the following word. -/
theorem acronym_rule_only_kebab :
    ChainPrompt.toKebabCaseStr ("XMLHttpRequest") = "xml-http-request" ∧
    RefinedPrompt.toCamelCaseStr ("XMLHttpRequest") = "xmlhttpRequest" ∧
    RefinedPrompt.toDotCaseStr ("XMLHttpRequest") = "xmlhttp.request" := by
  exact ⟨by decide, by decide, by decide⟩

/-- Claim C3 (counterexample): `toKebabCase` does not split between a letter and an
adjacent digit: `toKebabCase("version2alpha")` is `"version2alpha"`, not
`"version-2-alpha"`. -/
theorem toKebabCase_version2alpha_counterexample :
    ChainPrompt.toKebabCaseStr ("version2alpha") = "version2alpha" ∧
    ChainPrompt.toKebabCaseStr ("version2alpha") ≠ "version-2-alpha" := by
  exact ⟨by decide, by decide⟩

/-- Claim C3 (amended): the refined `toCamelCase` and `toDotCase` split at
letter/digit boundaries in both directions, but `toKebabCase` has no letter-digit or
digit-letter rule and keeps `"version2alpha"` as one token. -/
theorem letter_digit_split_camel_dot_only :
    RefinedPrompt.toCamelCaseStr ("version2alpha") = "version2Alpha" ∧
    RefinedPrompt.toDotCaseStr ("version2alpha") = "version.2.alpha" ∧
    ChainPrompt.toKebabCaseStr ("version2alpha") = "version2alpha" := by
  exact ⟨by decide, by decide, by decide⟩

/-- Claim C4 (counterexample): splitting `toKebabCase(s)` on hyphens and
`toDotCase(s)` on dots does not give the same word sequence for every `s`: at
`"version2alpha"` the kebab split has one word and the dot split three. -/
theorem kebab_dot_partition_counterexample :
    jsSplitChar '-' (ChainPrompt.toKebabCaseStr ("version2alpha")).data ≠
    jsSplitChar '.' (RefinedPrompt.toDotCaseStr ("version2alpha")).data := by
  decide

/-- Claim C5: the camel renderer lowercases the first token entirely; every later
token gets its first character uppercased when it is a letter and kept unchanged when
it is a digit, with the remaining characters lowercased; tokens are concatenated with
no separator.  In particular `toCamelCase("version2alpha")` is `"version2Alpha"`. -/
theorem camel_renderer_spec :
    (∀ w ws, renderCamel (w :: ws) = lowerWord w ++ (ws.map capitalize).flatten) ∧
    (∀ c cs, isN c = true → capitalize (c :: cs) = c :: lowerWord cs) ∧
    (∀ c cs, isL c = true → capitalize (c :: cs) = jsToUpper c :: lowerWord cs) ∧
    RefinedPrompt.toCamelCaseStr ("version2alpha") = "version2Alpha" := by
  refine ⟨fun w ws => rfl, fun c cs h => by simp [capitalize, h], fun c cs h => ?_,
    by decide⟩
  rw [capitalize, if_neg]
  simp [isN_eq_false_of_isL h]

/-- Witness for C5 at concrete tokens: a digit-led token is preserved, a letter-led
token is capitalized. -/
theorem camel_renderer_spec_witness :
    capitalize ['2', 'b'] = ['2', 'b'] ∧ capitalize ['a', 'B'] = ['A', 'b'] := by
  constructor
  · exact (camel_renderer_spec.2.1 '2' ['b'] (by decide)).trans (by decide)
  · exact (camel_renderer_spec.2.2.1 'a' ['B'] (by decide)).trans (by decide)

/-- Claim C7: every string input yields an ordinary string result — never an error —
and the degenerate inputs, the empty string, a whitespace-only string and a
punctuation-only string, all give the empty string. -/
theorem string_inputs_total :
    (∀ s : String, ∃ t, ChainPrompt.toKebabCase (JSValue.str s) = Except.ok t) ∧
    (∀ s : String, ∃ t, RefinedPrompt.toCamelCase (JSValue.str s) = Except.ok t) ∧
    (∀ s : String, ∃ t, RefinedPrompt.toDotCase (JSValue.str s) = Except.ok t) ∧
    (∀ s : String, ∃ t, FewShotPrompt.toCamelCase (JSValue.str s) = Except.ok t) ∧
    ChainPrompt.toKebabCaseStr ("") = "" ∧
    RefinedPrompt.toCamelCaseStr ("   ") = "" ∧
    RefinedPrompt.toDotCaseStr ("!!!") = "" := by
  refine ⟨fun s => ⟨_, rfl⟩, fun s => ⟨_, rfl⟩, fun s => ⟨_, rfl⟩, fun s => ⟨_, rfl⟩,
    by decide, by decide, by decide⟩

/-- Claim C9 (counterexample): the two `toCamelCase` implementations disagree:
few_shot_prompt.js maps `"version2alpha"` to `"version2alpha"` while
refined_prompt.js maps it to `"version2Alpha"`. -/
theorem camel_impls_differ :
    FewShotPrompt.toCamelCaseStr ("version2alpha") = "version2alpha" ∧
    RefinedPrompt.toCamelCaseStr ("version2alpha") = "version2Alpha" ∧
    FewShotPrompt.toCamelCaseStr ("version2alpha") ≠
      RefinedPrompt.toCamelCaseStr ("version2alpha") := by
  exact ⟨by decide, by decide, by decide⟩

/-!  ## A two-step induction principle for the pair scanners  -/

theorem twoStepInduction {P : List Char → Prop} (h0 : P []) (h1 : ∀ c, P [c])
    (h2 : ∀ a b rest, P rest → P (b :: rest) → P (a :: b :: rest)) : ∀ l, P l := by
  have key : ∀ n (l : List Char), l.length ≤ n → P l := by
    intro n
    induction n with
    | zero =>
      intro l hl
      have hn : l = [] := List.eq_nil_of_length_eq_zero (Nat.le_zero.mp hl)
      rw [hn]
      exact h0
    | succ n ih =>
      intro l hl
      cases l with
      | nil => exact h0
      | cons a l2 =>
        cases l2 with
        | nil => exact h1 a
        | cons b rest =>
          simp only [List.length_cons] at hl
          exact h2 a b rest (ih rest (by omega)) (ih (b :: rest) (by simp only [List.length_cons]; omega))
  exact fun l => key l.length l le_rfl

/-!  ## Facts about `pairFree`  -/

theorem pairFree_cons_cons {t : Char → Char → Bool} {a b : Char} {rest : List Char} :
    pairFree t (a :: b :: rest) = true ↔ t a b = false ∧ pairFree t (b :: rest) = true := by
  simp [pairFree]

theorem pairFree_cons {t : Char → Char → Bool} {a : Char} {X : List Char}
    (hX : pairFree t X = true) (h : ∀ b, X.head? = some b → t a b = false) :
    pairFree t (a :: X) = true := by
  cases X with
  | nil => rfl
  | cons b rest => exact pairFree_cons_cons.mpr ⟨h b rfl, hX⟩

theorem pairFree_tail {t : Char → Char → Bool} {a : Char} {X : List Char}
    (h : pairFree t (a :: X) = true) : pairFree t X = true := by
  cases X with
  | nil => rfl
  | cons b rest => exact (pairFree_cons_cons.mp h).2

theorem pairFree_head {t : Char → Char → Bool} {a b : Char} {rest : List Char}
    (h : pairFree t (a :: b :: rest) = true) : t a b = false :=
  (pairFree_cons_cons.mp h).1

theorem pairFree_head_of_head? {t : Char → Char → Bool} {a b : Char} {X : List Char}
    (h : pairFree t (a :: X) = true) (hb : X.head? = some b) : t a b = false := by
  cases X with
  | nil => exact absurd hb (by simp)
  | cons c rest =>
    rw [List.head?_cons, Option.some_inj] at hb
    rw [← hb]
    exact pairFree_head h

theorem pairFree_append {t : Char → Char → Bool} {X Y : List Char}
    (hX : pairFree t X = true) (hY : pairFree t Y = true)
    (hb : ∀ a b, X.getLast? = some a → Y.head? = some b → t a b = false) :
    pairFree t (X ++ Y) = true := by
  induction X with
  | nil => simpa using hY
  | cons a X2 ih =>
    cases X2 with
    | nil =>
      simp only [List.cons_append, List.nil_append]
      apply pairFree_cons hY
      intro b hbY
      exact hb a b rfl hbY
    | cons c X3 =>
      simp only [List.cons_append] at ih ⊢
      apply pairFree_cons (ih (pairFree_tail hX) ?_)
      · intro b hbh
        rw [List.head?_cons, Option.some_inj] at hbh
        rw [← hbh]
        exact pairFree_head hX
      · intro x y hx hy
        apply hb x y ?_ hy
        rw [List.getLast?_cons_cons]
        exact hx

theorem pairFree_of_forall {t : Char → Char → Bool} {l : List Char}
    (h : ∀ a ∈ l, ∀ b ∈ l, t a b = false) : pairFree t l = true := by
  induction l with
  | nil => rfl
  | cons a X ih =>
    apply pairFree_cons
    · exact ih (fun x hx y hy => h x (List.mem_cons_of_mem _ hx) y (List.mem_cons_of_mem _ hy))
    · intro b hbh
      have hbmem : b ∈ X := by
        cases X with
        | nil => exact absurd hbh (by simp)
        | cons c rest =>
          rw [List.head?_cons, Option.some_inj] at hbh
          rw [← hbh]
          exact List.mem_cons_self _ _
      exact h a (List.mem_cons_self _ _) b (List.mem_cons_of_mem _ hbmem)

/-!  ## Facts about `sepPair`  -/

theorem sepPair_cons_cons (t : Char → Char → Bool) (sep a b : Char) (rest : List Char) :
    sepPair t sep (a :: b :: rest) =
      if t a b then a :: sep :: b :: sepPair t sep rest
      else a :: sepPair t sep (b :: rest) := rfl

theorem sepPair_head? (t : Char → Char → Bool) (sep : Char) (l : List Char) :
    (sepPair t sep l).head? = l.head? := by
  cases l with
  | nil => rfl
  | cons a l2 =>
    cases l2 with
    | nil => rfl
    | cons b rest =>
      rw [sepPair_cons_cons]
      cases h : t a b <;> simp

theorem sepPair_id_of_pairFree {t : Char → Char → Bool} {sep : Char} :
    ∀ {l : List Char}, pairFree t l = true → sepPair t sep l = l := by
  have key : ∀ l : List Char, pairFree t l = true → sepPair t sep l = l := by
    apply twoStepInduction
    · intro _; rfl
    · intro c _; rfl
    · intro a b rest _ ih2 hp
      rw [sepPair_cons_cons, if_neg (by rw [pairFree_head hp]; simp)]
      rw [ih2 (pairFree_tail hp)]
  exact fun {l} => key l

theorem sepPair_pairFree {t : Char → Char → Bool} {sep : Char}
    (hL : ∀ x, t x sep = false) (hR : ∀ x, t sep x = false)
    (hchain : ∀ a b c, t a b = true → t b c = false) :
    ∀ l : List Char, pairFree t (sepPair t sep l) = true := by
  apply twoStepInduction
  · rfl
  · intro c; rfl
  · intro a b rest ih1 ih2
    rw [sepPair_cons_cons]
    cases h : t a b with
    | true =>
      rw [if_pos rfl]
      apply pairFree_cons
      · apply pairFree_cons
        · apply pairFree_cons ih1
          intro x hx
          rw [sepPair_head? t sep rest] at hx
          exact hchain a b x h
        · intro x hx
          rw [List.head?_cons, Option.some_inj] at hx
          rw [← hx]
          exact hR b
      · intro x hx
        rw [List.head?_cons, Option.some_inj] at hx
        rw [← hx]
        exact hL a
    | false =>
      rw [if_neg (by simp)]
      apply pairFree_cons ih2
      intro x hx
      rw [sepPair_head?, List.head?_cons, Option.some_inj] at hx
      rw [← hx]
      exact h

theorem sepPair_preserves_pairFree {t1 t2 : Char → Char → Bool} {sep : Char}
    (hL : ∀ x, t1 x sep = false) (hR : ∀ x, t1 sep x = false) :
    ∀ l : List Char, pairFree t1 l = true → pairFree t1 (sepPair t2 sep l) = true := by
  apply twoStepInduction
  · intro _; rfl
  · intro c _; rfl
  · intro a b rest ih1 ih2 hp
    rw [sepPair_cons_cons]
    cases h : t2 a b with
    | true =>
      rw [if_pos rfl]
      apply pairFree_cons
      · apply pairFree_cons
        · apply pairFree_cons (ih1 (pairFree_tail (pairFree_tail hp)))
          intro x hx
          rw [sepPair_head? t2 sep rest] at hx
          exact pairFree_head_of_head? (pairFree_tail hp) hx
        · intro x hx
          rw [List.head?_cons, Option.some_inj] at hx
          rw [← hx]
          exact hR b
      · intro x hx
        rw [List.head?_cons, Option.some_inj] at hx
        rw [← hx]
        exact hL a
    | false =>
      rw [if_neg (by simp)]
      apply pairFree_cons (ih2 (pairFree_tail hp))
      intro x hx
      rw [sepPair_head?, List.head?_cons, Option.some_inj] at hx
      rw [← hx]
      exact pairFree_head hp

theorem sepPair_mem {t : Char → Char → Bool} {sep : Char} {Q : Char → Prop} :
    ∀ {l : List Char}, (∀ c ∈ l, Q c) → Q sep → ∀ c ∈ sepPair t sep l, Q c := by
  have key : ∀ l : List Char, (∀ c ∈ l, Q c) → Q sep → ∀ c ∈ sepPair t sep l, Q c := by
    apply twoStepInduction
    · intro _ _ c hc
      exact absurd hc (by simp [sepPair])
    · intro x h _ c hc
      have he : sepPair t sep [x] = [x] := rfl
      rw [he, List.mem_singleton] at hc
      exact hc ▸ h x (by simp)
    · intro a b rest ih1 ih2 h hs c hc
      rw [sepPair_cons_cons] at hc
      cases ht : t a b with
      | true =>
        rw [if_pos ht, List.mem_cons] at hc
        rcases hc with hc | hc
        · exact hc ▸ h a (by simp)
        rw [List.mem_cons] at hc
        rcases hc with hc | hc
        · exact hc ▸ hs
        rw [List.mem_cons] at hc
        rcases hc with hc | hc
        · exact hc ▸ h b (by simp)
        · exact ih1 (fun x hx => h x (List.mem_cons_of_mem a (List.mem_cons_of_mem b hx)))
            hs c hc
      | false =>
        rw [if_neg (by simp [ht]), List.mem_cons] at hc
        rcases hc with hc | hc
        · exact hc ▸ h a (by simp)
        · exact ih2 (fun x hx => h x (List.mem_cons_of_mem a hx)) hs c hc
  exact fun {l} => key l

/-!  ## Facts about `splitByAux`  -/

theorem splitByAux_nil (p : Char → Bool) (cur : List Char) :
    splitByAux p cur [] = if cur = [] then [] else [cur.reverse] := rfl

theorem splitByAux_cons (p : Char → Bool) (cur : List Char) (c : Char) (cs : List Char) :
    splitByAux p cur (c :: cs) =
      if p c then
        if cur = [] then splitByAux p [] cs else cur.reverse :: splitByAux p [] cs
      else splitByAux p (c :: cur) cs := rfl

theorem splitByAux_ne_nil {p : Char → Bool} :
    ∀ (l : List Char) (cur : List Char), cur ≠ [] → splitByAux p cur l ≠ [] := by
  intro l
  induction l with
  | nil =>
    intro cur hc
    rw [splitByAux_nil, if_neg hc]
    simp
  | cons c cs ih =>
    intro cur hc
    rw [splitByAux_cons]
    by_cases hp : p c = true
    · rw [if_pos hp, if_neg hc]
      simp
    · rw [if_neg hp]
      exact ih (c :: cur) (by simp)

theorem splitByAux_words {p : Char → Bool} :
    ∀ (l cur : List Char), (∀ c ∈ cur, p c = false) →
      ∀ w ∈ splitByAux p cur l, w ≠ [] ∧ ∀ c ∈ w, p c = false := by
  intro l
  induction l with
  | nil =>
    intro cur hcur w hw
    rw [splitByAux_nil] at hw
    by_cases hc : cur = []
    · rw [if_pos hc] at hw
      exact absurd hw (by simp)
    · rw [if_neg hc, List.mem_singleton] at hw
      subst hw
      refine ⟨by simpa using hc, ?_⟩
      intro c hcm
      exact hcur c (List.mem_reverse.mp hcm)
  | cons c cs ih =>
    intro cur hcur w hw
    rw [splitByAux_cons] at hw
    by_cases hp : p c = true
    · rw [if_pos hp] at hw
      by_cases hc : cur = []
      · rw [if_pos hc] at hw
        exact ih [] (by simp) w hw
      · rw [if_neg hc, List.mem_cons] at hw
        rcases hw with hw | hw
        · subst hw
          refine ⟨by simpa using hc, ?_⟩
          intro x hxm
          exact hcur x (List.mem_reverse.mp hxm)
        · exact ih [] (by simp) w hw
    · rw [if_neg hp] at hw
      refine ih (c :: cur) ?_ w hw
      intro x hx
      rw [List.mem_cons] at hx
      rcases hx with hx | hx
      · exact hx ▸ Bool.eq_false_iff.mpr hp
      · exact hcur x hx

theorem splitByAux_word_append {p : Char → Bool} :
    ∀ (w cur r : List Char), (∀ c ∈ w, p c = false) →
      splitByAux p cur (w ++ r) = splitByAux p (w.reverse ++ cur) r := by
  intro w
  induction w with
  | nil =>
    intro cur r _
    simp
  | cons c w2 ih =>
    intro cur r h
    have hc : p c = false := h c (by simp)
    rw [List.cons_append, splitByAux_cons, hc, if_neg (by simp)]
    rw [ih (c :: cur) r (fun x hx => h x (List.mem_cons_of_mem c hx))]
    congr 1
    simp

theorem splitBy_joinSep {p : Char → Bool} {sep : Char} (hsep : p sep = true) :
    ∀ ws : List (List Char), (∀ w ∈ ws, w ≠ [] ∧ ∀ c ∈ w, p c = false) →
      splitByAux p [] (joinSep sep ws) = ws := by
  intro ws
  induction ws with
  | nil => intro _; rfl
  | cons w ws2 ih =>
    intro h
    have hw := h w (by simp)
    cases ws2 with
    | nil =>
      have hj : joinSep sep [w] = w ++ [] := by simp [joinSep]
      rw [hj, splitByAux_word_append w [] [] hw.2, splitByAux_nil,
        if_neg (by simpa using hw.1)]
      simp
    | cons w2 ws3 =>
      have hj : joinSep sep (w :: w2 :: ws3) = w ++ sep :: joinSep sep (w2 :: ws3) := rfl
      rw [hj, splitByAux_word_append w [] _ hw.2, splitByAux_cons, if_pos hsep,
        if_neg (by simpa using hw.1), List.reverse_append, List.reverse_reverse]
      simp only [List.reverse_nil, List.nil_append, List.reverse_reverse]
      rw [ih (fun u hu => h u (List.mem_cons_of_mem w hu))]

theorem pairFree_append_left {t : Char → Char → Bool} :
    ∀ (X Y : List Char), pairFree t (X ++ Y) = true → pairFree t X = true := by
  intro X
  induction X with
  | nil =>
    intro Y _
    rfl
  | cons a X2 ih =>
    intro Y h
    rw [List.cons_append] at h
    apply pairFree_cons (ih Y (pairFree_tail h))
    intro b hb
    cases X2 with
    | nil => exact absurd hb (by simp)
    | cons c X3 =>
      rw [List.head?_cons, Option.some_inj] at hb
      subst hb
      rw [List.cons_append] at h
      exact pairFree_head h

theorem pairFree_append_right {t : Char → Char → Bool} :
    ∀ (X Y : List Char), pairFree t (X ++ Y) = true → pairFree t Y = true := by
  intro X
  induction X with
  | nil =>
    intro Y h
    simpa using h
  | cons a X2 ih =>
    intro Y h
    rw [List.cons_append] at h
    exact ih Y (pairFree_tail h)

theorem splitByAux_pairFree {t : Char → Char → Bool} {p : Char → Bool} :
    ∀ (l cur : List Char), pairFree t (cur.reverse ++ l) = true →
      ∀ w ∈ splitByAux p cur l, pairFree t w = true := by
  intro l
  induction l with
  | nil =>
    intro cur hp w hw
    rw [splitByAux_nil] at hw
    by_cases hc : cur = []
    · rw [if_pos hc] at hw
      exact absurd hw (by simp)
    · rw [if_neg hc, List.mem_singleton] at hw
      subst hw
      simpa using hp
  | cons c cs ih =>
    intro cur hp w hw
    rw [splitByAux_cons] at hw
    have hcs : pairFree t (([] : List Char).reverse ++ cs) = true := by
      simp only [List.reverse_nil, List.nil_append]
      exact pairFree_tail (pairFree_append_right cur.reverse (c :: cs) hp)
    by_cases hpc : p c = true
    · rw [if_pos hpc] at hw
      by_cases hc : cur = []
      · rw [if_pos hc] at hw
        exact ih [] hcs w hw
      · rw [if_neg hc, List.mem_cons] at hw
        rcases hw with hw | hw
        · subst hw
          exact pairFree_append_left cur.reverse (c :: cs) hp
        · exact ih [] hcs w hw
    · rw [if_neg hpc] at hw
      refine ih (c :: cur) ?_ w hw
      rw [List.reverse_cons, List.append_assoc, List.singleton_append]
      exact hp

/-!  ## Facts about `joinSep`  -/

theorem joinSep_cons {sep : Char} {w : List Char} {ws : List (List Char)} (h : ws ≠ []) :
    joinSep sep (w :: ws) = w ++ sep :: joinSep sep ws := by
  cases ws with
  | nil => exact absurd rfl h
  | cons w2 ws2 => rfl

theorem joinSep_ne_nil {sep : Char} {ws : List (List Char)} (h : ws ≠ [])
    (hne : ∀ w ∈ ws, w ≠ []) : joinSep sep ws ≠ [] := by
  cases ws with
  | nil => exact absurd rfl h
  | cons w ws2 =>
    cases ws2 with
    | nil => exact hne w (by simp)
    | cons w2 ws3 =>
      rw [joinSep_cons (by simp)]
      intro hx
      rcases List.append_eq_nil.mp hx with ⟨_, h2⟩
      exact List.cons_ne_nil _ _ h2

theorem joinSep_mem {sep : Char} {Q : Char → Prop} :
    ∀ ws : List (List Char), (∀ w ∈ ws, ∀ c ∈ w, Q c) → Q sep →
      ∀ c ∈ joinSep sep ws, Q c := by
  intro ws
  induction ws with
  | nil =>
    intro _ _ c hc
    exact absurd hc (by simp [joinSep])
  | cons w ws2 ih =>
    intro h hs c hc
    cases ws2 with
    | nil => exact h w (by simp) c (by simpa [joinSep] using hc)
    | cons w2 ws3 =>
      rw [joinSep_cons (by simp), List.mem_append] at hc
      rcases hc with hc | hc
      · exact h w (by simp) c hc
      · rw [List.mem_cons] at hc
        rcases hc with hc | hc
        · exact hc ▸ hs
        · exact ih (fun u hu => h u (List.mem_cons_of_mem w hu)) hs c hc

theorem joinSep_head? {sep : Char} {w : List Char} (ws : List (List Char)) (h : w ≠ []) :
    (joinSep sep (w :: ws)).head? = w.head? := by
  cases ws with
  | nil => rfl
  | cons w2 ws2 =>
    rw [joinSep_cons (by simp)]
    cases w with
    | nil => exact absurd rfl h
    | cons c cs => rfl

theorem getLast?_append_right (X : List Char) {Y : List Char} (h : Y ≠ []) :
    (X ++ Y).getLast? = Y.getLast? := by
  rw [List.getLast?_append]
  cases hg : Y.getLast? with
  | none => exact absurd (List.getLast?_eq_none_iff.mp hg) h
  | some a => rfl

theorem joinSep_getLast?_mem {sep : Char} :
    ∀ ws : List (List Char), (∀ u ∈ ws, u ≠ []) → ws ≠ [] →
      ∃ w ∈ ws, (joinSep sep ws).getLast? = w.getLast? := by
  intro ws
  induction ws with
  | nil =>
    intro _ h
    exact absurd rfl h
  | cons w ws2 ih =>
    intro hne _
    cases ws2 with
    | nil => exact ⟨w, by simp, rfl⟩
    | cons w2 ws3 =>
      obtain ⟨u, hu, heq⟩ := ih (fun x hx => hne x (List.mem_cons_of_mem w hx)) (by simp)
      refine ⟨u, List.mem_cons_of_mem w hu, ?_⟩
      have hJ : joinSep sep (w2 :: ws3) ≠ [] :=
        joinSep_ne_nil (by simp) (fun x hx => hne x (List.mem_cons_of_mem w hx))
      rw [joinSep_cons (by simp), getLast?_append_right w (by simp),
        show (sep :: joinSep sep (w2 :: ws3)) = [sep] ++ joinSep sep (w2 :: ws3) from rfl,
        getLast?_append_right [sep] hJ]
      exact heq

/-!  ## Some concrete character facts  -/

theorem hyphen_not_alnum : isAlnum '-' = false := by decide

theorem dot_not_alnum : isAlnum '.' = false := by decide

theorem space_is_ws : isJsWs ' ' = true := by decide

theorem ne_hyphen_of_isAlnum {c : Char} (h : isAlnum c = true) : ¬ c = '-' := by
  intro he
  subst he
  exact absurd h (by decide)

/-!  ## The delimiter-collapsing pass against the splitters  -/

theorem collapseNonAlnumAux_cons (sep : Char) (prev : Bool) (c : Char) (cs : List Char) :
    collapseNonAlnumAux sep prev (c :: cs) =
      if isAlnum c then c :: collapseNonAlnumAux sep true cs
      else if prev then sep :: collapseNonAlnumAux sep false cs
      else collapseNonAlnumAux sep false cs := rfl

/-- Collapsing delimiters to spaces and then splitting on whitespace is the same as
taking the letter/digit runs directly. -/
theorem splitWs_collapse :
    ∀ (l : List Char) (cur : List Char) (prev : Bool), (prev = false → cur = []) →
      splitByAux isJsWs cur (collapseNonAlnumAux ' ' prev l) =
        splitByAux (fun c => !isAlnum c) cur l := by
  intro l
  induction l with
  | nil =>
    intro cur prev _
    rfl
  | cons c cs ih =>
    intro cur prev hpc
    rw [collapseNonAlnumAux_cons]
    by_cases ha : isAlnum c = true
    · rw [if_pos ha, splitByAux_cons, if_neg (by rw [not_isJsWs_of_isAlnum ha]; simp),
        splitByAux_cons (fun c => !isAlnum c), if_neg (by simp [ha])]
      exact ih (c :: cur) true (by simp)
    · have ha2 : isAlnum c = false := Bool.eq_false_iff.mpr ha
      rw [if_neg ha]
      cases prev with
      | true =>
        rw [if_pos rfl]
        by_cases hc : cur = []
        · subst hc
          rw [splitByAux_cons, if_pos space_is_ws, if_pos rfl,
            splitByAux_cons (fun c => !isAlnum c), if_pos (by simp [ha2]), if_pos rfl]
          exact ih [] false (fun _ => rfl)
        · rw [splitByAux_cons, if_pos space_is_ws, if_neg hc,
            splitByAux_cons (fun c => !isAlnum c), if_pos (by simp [ha2]), if_neg hc]
          rw [ih [] false (fun _ => rfl)]
      | false =>
        have hcur : cur = [] := hpc rfl
        subst hcur
        rw [if_neg (by simp), splitByAux_cons (fun c => !isAlnum c), if_pos (by simp [ha2]),
          if_pos rfl]
        exact ih [] false (fun _ => rfl)

theorem collapseHyphensAux_cons (b : Bool) (c : Char) (cs : List Char) :
    collapseHyphensAux b (c :: cs) =
      if c = '-' then
        if b then collapseHyphensAux true cs else '-' :: collapseHyphensAux true cs
      else c :: collapseHyphensAux false cs := rfl

/-- The hyphen-collapsing pass is the identity on the output of the delimiter
collapse, whose hyphens are already isolated. -/
theorem collapseHyphens_collapse :
    ∀ (l : List Char) (b prev : Bool), (b = true → prev = false) →
      collapseHyphensAux b (collapseNonAlnumAux '-' prev l) =
        collapseNonAlnumAux '-' prev l := by
  intro l
  induction l with
  | nil =>
    intro b prev _
    rfl
  | cons c cs ih =>
    intro b prev hbp
    rw [collapseNonAlnumAux_cons]
    by_cases ha : isAlnum c = true
    · rw [if_pos ha, collapseHyphensAux_cons, if_neg (ne_hyphen_of_isAlnum ha)]
      rw [ih false true (by simp)]
    · rw [if_neg ha]
      cases prev with
      | true =>
        rw [if_pos rfl, collapseHyphensAux_cons, if_pos rfl]
        have hb : b = false := by
          cases b with
          | false => rfl
          | true => exact absurd (hbp rfl) (by simp)
        subst hb
        rw [if_neg (by simp)]
        rw [ih true false (fun _ => rfl)]
      | false =>
        rw [if_neg (by simp)]
        exact ih b false (fun _ => rfl)

theorem collapse_false_nil_iff :
    ∀ cs : List Char, collapseNonAlnumAux '-' false cs = [] ↔
      splitByAux (fun c => !isAlnum c) [] cs = [] := by
  intro cs
  induction cs with
  | nil => constructor <;> (intro _; rfl)
  | cons c cs2 ih =>
    rw [collapseNonAlnumAux_cons, splitByAux_cons]
    by_cases ha : isAlnum c = true
    · rw [if_pos ha, if_neg (by simp [ha])]
      constructor
      · intro h
        exact absurd h (List.cons_ne_nil _ _)
      · intro h
        exact absurd h (splitByAux_ne_nil cs2 [c] (by simp))
    · have ha2 : isAlnum c = false := Bool.eq_false_iff.mpr ha
      rw [if_neg ha, if_neg (by simp), if_pos (by simp [ha2]), if_pos rfl]
      exact ih

/-!  ## Facts about the edge-hyphen trimming  -/

theorem dropTrailHyphen_of_getLast_alnum {l : List Char}
    (h : ∀ c, l.getLast? = some c → isAlnum c = true) : dropTrailHyphen l = l := by
  cases hl : l.getLast? with
  | none => simp [dropTrailHyphen, hl]
  | some c => simp [dropTrailHyphen, hl, ne_hyphen_of_isAlnum (h c hl)]

theorem dropTrailHyphen_concat (X : List Char) : dropTrailHyphen (X ++ ['-']) = X := by
  simp [dropTrailHyphen, List.getLast?_concat]

theorem dropTrailHyphen_append (X : List Char) {Y : List Char} (hY : Y ≠ []) :
    dropTrailHyphen (X ++ Y) = X ++ dropTrailHyphen Y := by
  cases hg : Y.getLast? with
  | none => exact absurd (List.getLast?_eq_none_iff.mp hg) hY
  | some a =>
    by_cases ha : a = '-'
    · simp [dropTrailHyphen, getLast?_append_right X hY, hg, ha,
        List.dropLast_append_of_ne_nil X hY]
    · simp [dropTrailHyphen, getLast?_append_right X hY, hg, ha]

/-- The kebab cleanup (trailing-hyphen removal) turns the collapsed text into the
hyphen-join of the letter/digit runs.  First component: scanning state with no
pending word; second: a nonempty pending word of letters/digits. -/
theorem kebab_cleanup :
    ∀ l : List Char,
      (dropTrailHyphen (collapseNonAlnumAux '-' false l) =
        joinSep '-' (splitByAux (fun c => !isAlnum c) [] l)) ∧
      (∀ cur : List Char, cur ≠ [] → (∀ c ∈ cur, isAlnum c = true) →
        dropTrailHyphen (cur.reverse ++ collapseNonAlnumAux '-' true l) =
          joinSep '-' (splitByAux (fun c => !isAlnum c) cur l)) := by
  intro l
  induction l with
  | nil =>
    constructor
    · rfl
    · intro cur hc hall
      rw [show collapseNonAlnumAux '-' true [] = [] from rfl, List.append_nil,
        splitByAux_nil, if_neg hc]
      rw [dropTrailHyphen_of_getLast_alnum]
      · rfl
      · intro c hcl
        rw [List.getLast?_reverse] at hcl
        apply hall
        cases cur with
        | nil => exact absurd hcl (by simp)
        | cons c0 cur2 =>
          rw [List.head?_cons, Option.some_inj] at hcl
          rw [hcl]
          exact List.mem_cons_self _ _
  | cons c cs ih =>
    constructor
    · rw [collapseNonAlnumAux_cons]
      by_cases ha : isAlnum c = true
      · rw [if_pos ha, splitByAux_cons, if_neg (by simp [ha])]
        have h2 := ih.2 [c] (by simp) (by simpa using ha)
        simpa using h2
      · have ha2 : isAlnum c = false := Bool.eq_false_iff.mpr ha
        rw [if_neg ha, if_neg (by simp), splitByAux_cons, if_pos (by simp [ha2]), if_pos rfl]
        exact ih.1
    · intro cur hc hall
      rw [collapseNonAlnumAux_cons]
      by_cases ha : isAlnum c = true
      · rw [if_pos ha, splitByAux_cons, if_neg (by simp [ha])]
        have h2 := ih.2 (c :: cur) (by simp)
          (by
            intro x hx
            rw [List.mem_cons] at hx
            rcases hx with hx | hx
            · exact hx ▸ ha
            · exact hall x hx)
        rw [List.reverse_cons, List.append_assoc, List.singleton_append] at h2
        exact h2
      · have ha2 : isAlnum c = false := Bool.eq_false_iff.mpr ha
        rw [if_neg ha, if_pos rfl, splitByAux_cons, if_pos (by simp [ha2]), if_neg hc]
        by_cases hX : collapseNonAlnumAux '-' false cs = []
        · rw [hX]
          have hW : splitByAux (fun c => !isAlnum c) [] cs = [] :=
            (collapse_false_nil_iff cs).mp hX
          rw [hW]
          exact dropTrailHyphen_concat cur.reverse
        · have hW : splitByAux (fun c => !isAlnum c) [] cs ≠ [] := by
            intro hw
            exact hX ((collapse_false_nil_iff cs).mpr hw)
          rw [show cur.reverse ++ '-' :: collapseNonAlnumAux '-' false cs =
              (cur.reverse ++ ['-']) ++ collapseNonAlnumAux '-' false cs by simp]
          rw [dropTrailHyphen_append _ hX, ih.1, joinSep_cons hW]
          simp

/-!  ## Identity lemmas for the normalization stage  -/

theorem nfkdChar_id_of_lt {c : Char} (h : c.toNat < 192) : nfkdChar c = [c] := by
  unfold nfkdChar
  repeat rw [if_neg (by omega)]

theorem nfkd_id {l : List Char} (h : ∀ c ∈ l, nfkdChar c = [c]) : nfkd l = l := by
  induction l with
  | nil => rfl
  | cons c cs ih =>
    have hc := h c (by simp)
    have ih2 := ih (fun x hx => h x (List.mem_cons_of_mem c hx))
    rw [nfkd] at ih2 ⊢
    rw [List.flatMap_cons, hc, ih2, List.singleton_append]

theorem stripMarks_id {l : List Char} (h : ∀ c ∈ l, isM c = false) : stripMarks l = l := by
  rw [stripMarks]
  exact List.filter_eq_self.mpr (fun a ha => by simp [h a ha])

theorem dropWhile_all_false {p : Char → Bool} {l : List Char}
    (h : ∀ c ∈ l, p c = false) : l.dropWhile p = l := by
  cases l with
  | nil => rfl
  | cons c cs => rw [List.dropWhile_cons, if_neg (by simp [h c (by simp)])]

theorem jsTrim_id {l : List Char} (h : ∀ c ∈ l, isJsWs c = false) : jsTrim l = l := by
  rw [jsTrim, dropWhile_all_false h,
    dropWhile_all_false (fun c hc => h c (List.mem_reverse.mp hc)), List.reverse_reverse]

theorem normalizeText_id {l : List Char} (hws : ∀ c ∈ l, isJsWs c = false)
    (hnf : ∀ c ∈ l, nfkdChar c = [c]) (hm : ∀ c ∈ l, isM c = false) :
    normalizeText l = l := by
  rw [normalizeText, jsTrim_id hws, nfkd_id hnf, stripMarks_id hm]

/-!  ## The acronym pass on texts without uppercase letters  -/

theorem sepAcronymAux_cons (run : List Char) (c : Char) (cs : List Char) :
    sepAcronymAux run (c :: cs) =
      if isLu c then sepAcronymAux (c :: run) cs
      else if isLl c && decide (2 ≤ run.length) then
        match run with
        | last :: firsts => firsts.reverse ++ '-' :: last :: c :: sepAcronymAux [] cs
        | [] => c :: sepAcronymAux [] cs
      else run.reverse ++ c :: sepAcronymAux [] cs := rfl

theorem sepAcronym_id_of_no_upper :
    ∀ l : List Char, (∀ c ∈ l, isLu c = false) → sepAcronym l = l := by
  have key : ∀ l : List Char, (∀ c ∈ l, isLu c = false) → sepAcronymAux [] l = l := by
    intro l
    induction l with
    | nil => intro _; rfl
    | cons c cs ih =>
      intro h
      have hc := h c (by simp)
      rw [sepAcronymAux_cons, if_neg (by simp [hc]), if_neg (by simp),
        List.reverse_nil, List.nil_append]
      rw [ih (fun x hx => h x (List.mem_cons_of_mem c hx))]
  intro l h
  exact key l h

/-!  ## Pipeline normal forms  -/

theorem camelCore_eq (l : List Char) :
    camelCore l = renderCamel (alnumRuns (camelSepText l)) := by
  by_cases ht : jsTrim l = []
  · have h1 : camelCore l = [] := by
      simp only [camelCore]
      rw [if_pos ht]
    rw [h1, camelSepText, normalizeText, ht]
    rfl
  · have h1 : camelCore l = renderCamel (splitWsFilter (collapseNonAlnum ' '
        (sepDigitLetter ' ' (sepLetterDigit ' ' (sepLowerUpper ' '
          (stripMarks (nfkd (jsTrim l)))))))) := by
      simp only [camelCore]
      rw [if_neg ht]
    rw [h1, splitWsFilter, collapseNonAlnum, splitWs_collapse _ [] true (by simp),
      camelSepText, normalizeText]
    rfl

theorem dotCore_eq (l : List Char) :
    dotCore l = joinSep '.' ((alnumRuns (camelSepText l)).map lowerWord) := by
  by_cases ht : jsTrim l = []
  · have h1 : dotCore l = [] := by
      simp only [dotCore]
      rw [if_pos ht]
    rw [h1, camelSepText, normalizeText, ht]
    rfl
  · have h1 : dotCore l =
        (if splitWsFilter (collapseNonAlnum ' '
            (sepDigitLetter ' ' (sepLetterDigit ' ' (sepLowerUpper ' '
              (stripMarks (nfkd (jsTrim l))))))) = [] then []
         else joinSep '.' ((splitWsFilter (collapseNonAlnum ' '
            (sepDigitLetter ' ' (sepLetterDigit ' ' (sepLowerUpper ' '
              (stripMarks (nfkd (jsTrim l)))))))).map lowerWord)) := by
      simp only [dotCore]
      rw [if_neg ht]
    rw [h1, splitWsFilter, collapseNonAlnum, splitWs_collapse _ [] true (by simp)]
    have hs : sepDigitLetter ' ' (sepLetterDigit ' ' (sepLowerUpper ' '
        (stripMarks (nfkd (jsTrim l))))) = camelSepText l := by
      rw [camelSepText, normalizeText]
    rw [hs]
    by_cases hws : splitByAux (fun c => !isAlnum c) [] (camelSepText l) = []
    · rw [if_pos hws, alnumRuns, hws]
      rfl
    · rw [if_neg hws, alnumRuns]

theorem dropLeadHyphen_cons (c : Char) (cs : List Char) :
    dropLeadHyphen (c :: cs) = if c = '-' then cs else c :: cs := rfl

theorem kebabCore_eq (l : List Char) :
    kebabCore l = lowerWord (joinSep '-' (alnumRuns (kebabSepText l))) := by
  have h1 : kebabCore l = lowerWord (trimEdgeHyphens (collapseHyphens
      (collapseNonAlnum '-' (kebabSepText l)))) := by
    simp only [kebabCore, kebabSepText, normalizeText]
  rw [h1]
  generalize kebabSepText l = B
  rw [collapseHyphens, collapseNonAlnum, collapseHyphens_collapse B false true (by simp)]
  congr 1
  rw [trimEdgeHyphens]
  cases B with
  | nil => rfl
  | cons c cs =>
    rw [collapseNonAlnumAux_cons]
    by_cases ha : isAlnum c = true
    · rw [if_pos ha, dropLeadHyphen_cons, if_neg (ne_hyphen_of_isAlnum ha)]
      have h2 := (kebab_cleanup cs).2 [c] (by simp) (by simpa using ha)
      simp only [List.reverse_cons, List.reverse_nil, List.nil_append,
        List.singleton_append] at h2
      rw [h2, alnumRuns, splitByAux_cons, if_neg (by simp [ha])]
    · have ha2 : isAlnum c = false := Bool.eq_false_iff.mpr ha
      rw [if_neg ha, if_pos rfl, dropLeadHyphen_cons, if_pos rfl]
      rw [(kebab_cleanup cs).1, alnumRuns, splitByAux_cons, if_pos (by simp [ha2]),
        if_pos rfl]

/-!  ## Output shape of the pipelines  -/

theorem mem_of_head?_eq_some {l : List Char} {a : Char} (h : l.head? = some a) : a ∈ l := by
  cases l with
  | nil => exact absurd h (by simp)
  | cons c cs =>
    rw [List.head?_cons, Option.some_inj] at h
    rw [← h]
    exact List.mem_cons_self _ _

theorem hyphen_lower : jsToLower '-' = '-' := by decide

theorem dot_lower : jsToLower '.' = '.' := by decide

theorem lowerWord_joinSep (sep : Char) :
    ∀ ws : List (List Char),
      lowerWord (joinSep sep ws) = joinSep (jsToLower sep) (ws.map lowerWord) := by
  intro ws
  induction ws with
  | nil => rfl
  | cons w ws2 ih =>
    cases ws2 with
    | nil => rfl
    | cons w2 ws3 =>
      rw [joinSep_cons (show (w2 :: ws3 : List (List Char)) ≠ [] by simp)]
      rw [List.map_cons]
      rw [joinSep_cons (show (List.map lowerWord (w2 :: ws3) : List (List Char)) ≠ []
        by simp)]
      rw [← ih]
      simp only [lowerWord, List.map_append, List.map_cons]

theorem joinSep_pairFree {t : Char → Char → Bool} {sep : Char} :
    ∀ ws : List (List Char), (∀ w ∈ ws, w ≠ []) →
      (∀ w ∈ ws, pairFree t w = true) →
      (∀ w ∈ ws, ∀ a, w.getLast? = some a → t a sep = false) →
      (∀ w ∈ ws, ∀ b, w.head? = some b → t sep b = false) →
      pairFree t (joinSep sep ws) = true := by
  intro ws
  induction ws with
  | nil =>
    intro _ _ _ _
    rfl
  | cons w ws2 ih =>
    intro hne hpf hlast hhead
    cases ws2 with
    | nil => exact hpf w (by simp)
    | cons w2 ws3 =>
      rw [joinSep_cons (by simp)]
      apply pairFree_append (hpf w (by simp))
      · apply pairFree_cons
        · exact ih (fun x hx => hne x (List.mem_cons_of_mem w hx))
            (fun x hx => hpf x (List.mem_cons_of_mem w hx))
            (fun x hx => hlast x (List.mem_cons_of_mem w hx))
            (fun x hx => hhead x (List.mem_cons_of_mem w hx))
        · intro b hb
          rw [joinSep_head? ws3 (hne w2 (by simp))] at hb
          exact hhead w2 (by simp) b hb
      · intro a b ha hb
        rw [List.head?_cons, Option.some_inj] at hb
        rw [← hb]
        exact hlast w (by simp) a ha

theorem alnumRuns_words (l : List Char) :
    ∀ w ∈ alnumRuns l, w ≠ [] ∧ ∀ c ∈ w, isAlnum c = true := by
  intro w hw
  have hws := splitByAux_words (p := fun c => !isAlnum c) l [] (by simp) w hw
  refine ⟨hws.1, fun c hc => ?_⟩
  have h2 := hws.2 c hc
  simpa using h2

theorem lowerWord_ne_nil {w : List Char} (h : w ≠ []) : lowerWord w ≠ [] := by
  intro hx
  rw [lowerWord] at hx
  exact h (List.map_eq_nil_iff.mp hx)

/-- Every kebab output is the hyphen-join of its lowercased letter/digit runs. -/
theorem kebabCore_words (l : List Char) :
    kebabCore l = joinSep '-' ((alnumRuns (kebabSepText l)).map lowerWord) := by
  rw [kebabCore_eq, lowerWord_joinSep, hyphen_lower]

theorem lowWords_facts {ws : List (List Char)}
    (h : ∀ w ∈ ws, w ≠ [] ∧ ∀ c ∈ w, isAlnum c = true) :
    ∀ u ∈ ws.map lowerWord, u ≠ [] ∧ ∀ c ∈ u, (isLl c || isN c) = true := by
  intro u hu
  rw [List.mem_map] at hu
  obtain ⟨w, hw, rfl⟩ := hu
  have hf := h w hw
  refine ⟨lowerWord_ne_nil hf.1, ?_⟩
  intro c hc
  rw [lowerWord, List.mem_map] at hc
  obtain ⟨a, ha, rfl⟩ := hc
  exact lowerAlnum_of_isAlnum (hf.2 a ha)

theorem ne_hyphen_of_low {c : Char} (h : (isLl c || isN c) = true) : ¬ c = '-' := by
  rw [Bool.or_eq_true] at h
  rcases h with h | h
  · exact ne_hyphen_of_isAlnum (isAlnum_of_isLl h)
  · exact ne_hyphen_of_isAlnum (isAlnum_of_isN h)

/-- Shape of every kebab output: only lowercase letters, digits and hyphens; no two
adjacent hyphens; no hyphen at either end. -/
theorem kebabCore_shape (l : List Char) :
    (∀ c ∈ kebabCore l, (isLl c || isN c || decide (c = '-')) = true) ∧
    pairFree hyphenPair (kebabCore l) = true ∧
    (∀ c, (kebabCore l).head? = some c → ¬ c = '-') ∧
    (∀ c, (kebabCore l).getLast? = some c → ¬ c = '-') := by
  rw [kebabCore_words]
  have hws := lowWords_facts (alnumRuns_words (kebabSepText l))
  refine ⟨?_, ?_, ?_, ?_⟩
  · intro c hc
    refine joinSep_mem (Q := fun c => (isLl c || isN c || decide (c = '-')) = true) _
      ?_ (by simp) c hc
    intro w hw c2 hc2
    have h2 := (hws w hw).2 c2 hc2
    rw [Bool.or_eq_true]
    exact Or.inl h2
  · apply joinSep_pairFree
    · exact fun w hw => (hws w hw).1
    · intro w hw
      apply pairFree_of_forall
      intro a ha b hb
      rw [hyphenPair]
      have h2 := (hws w hw).2 a ha
      simp [ne_hyphen_of_low h2]
    · intro w hw a ha
      rw [hyphenPair]
      have h2 := (hws w hw).2 a (List.mem_of_getLast?_eq_some ha)
      simp [ne_hyphen_of_low h2]
    · intro w hw b hb
      rw [hyphenPair]
      have h2 := (hws w hw).2 b (mem_of_head?_eq_some hb)
      simp [ne_hyphen_of_low h2]
  · intro c hc
    cases hm : (alnumRuns (kebabSepText l)).map lowerWord with
    | nil =>
      rw [hm] at hc
      exact absurd hc (by simp [joinSep])
    | cons u us =>
      have humem : u ∈ (alnumRuns (kebabSepText l)).map lowerWord := by
        rw [hm]
        exact List.mem_cons_self _ _
      rw [hm, joinSep_head? us ((hws u humem).1)] at hc
      exact ne_hyphen_of_low ((hws u humem).2 c (mem_of_head?_eq_some hc))
  · intro c hc
    by_cases hm : (alnumRuns (kebabSepText l)).map lowerWord = []
    · rw [hm] at hc
      exact absurd hc (by simp [joinSep])
    · obtain ⟨w, hwmem, heq⟩ := @joinSep_getLast?_mem '-'
        ((alnumRuns (kebabSepText l)).map lowerWord) (fun u hu => (hws u hu).1) hm
      rw [heq] at hc
      have h2 := (hws w hwmem).2 c (List.mem_of_getLast?_eq_some hc)
      exact ne_hyphen_of_low h2

/-!  ## The kebab pipeline is idempotent  -/

theorem kebabChar_facts {c : Char} (h : (isLl c || isN c || decide (c = '-')) = true) :
    isJsWs c = false ∧ nfkdChar c = [c] ∧ isM c = false ∧ isLu c = false := by
  have hn : (97 ≤ c.toNat ∧ c.toNat ≤ 122) ∨ (48 ≤ c.toNat ∧ c.toNat ≤ 57) ∨
      c.toNat = 45 := by
    rw [Bool.or_eq_true, Bool.or_eq_true] at h
    rcases h with (h | h) | h
    · rw [isLl_iff] at h
      exact Or.inl h
    · rw [isN_iff] at h
      exact Or.inr (Or.inl h)
    · have hc := of_decide_eq_true h
      subst hc
      exact Or.inr (Or.inr (by decide))
  refine ⟨?_, nfkdChar_id_of_lt (by omega), ?_, ?_⟩
  · rw [Bool.eq_false_iff]
    intro hw
    rw [isJsWs_iff] at hw
    omega
  · rw [Bool.eq_false_iff]
    intro hw
    rw [isM_iff] at hw
    omega
  · rw [Bool.eq_false_iff]
    intro hw
    rw [isLu_iff] at hw
    omega

theorem lowerWord_id {u : List Char} (h : ∀ c ∈ u, (isLl c || isN c) = true) :
    lowerWord u = u := by
  induction u with
  | nil => rfl
  | cons c cs ih =>
    have hc := h c (by simp)
    have h2 : jsToLower c = c := by
      rw [Bool.or_eq_true] at hc
      rcases hc with hc | hc
      · exact jsToLower_of_isLl hc
      · exact jsToLower_of_isN hc
    rw [lowerWord, List.map_cons, h2,
      show (List.map jsToLower cs : List Char) = lowerWord cs from rfl,
      ih (fun x hx => h x (List.mem_cons_of_mem c hx))]

theorem map_lowerWord_id {ws : List (List Char)}
    (h : ∀ u ∈ ws, ∀ c ∈ u, (isLl c || isN c) = true) : ws.map lowerWord = ws := by
  induction ws with
  | nil => rfl
  | cons u us ih =>
    rw [List.map_cons, lowerWord_id (h u (by simp)),
      ih (fun x hx => h x (List.mem_cons_of_mem u hx))]

theorem kebabCore_fixpoint (l : List Char) : kebabCore (kebabCore l) = kebabCore l := by
  have hchars := (kebabCore_shape l).1
  have hnorm : normalizeText (kebabCore l) = kebabCore l :=
    normalizeText_id (fun c hc => (kebabChar_facts (hchars c hc)).1)
      (fun c hc => (kebabChar_facts (hchars c hc)).2.1)
      (fun c hc => (kebabChar_facts (hchars c hc)).2.2.1)
  have hnoupper : ∀ c ∈ kebabCore l, isLu c = false :=
    fun c hc => (kebabChar_facts (hchars c hc)).2.2.2
  have hsep : kebabSepText (kebabCore l) = kebabCore l := by
    rw [kebabSepText, hnorm, sepLowerUpper,
      sepPair_id_of_pairFree (pairFree_of_forall (fun a _ b hb => by
        rw [lowerUpperPair, hnoupper b hb]
        simp)),
      sepAcronym_id_of_no_upper _ hnoupper]
  have hlow := lowWords_facts (alnumRuns_words (kebabSepText l))
  have hruns : alnumRuns (kebabCore l) = (alnumRuns (kebabSepText l)).map lowerWord := by
    rw [kebabCore_words l, alnumRuns]
    apply splitBy_joinSep
    · simp [hyphen_not_alnum]
    · intro w hw
      refine ⟨(hlow w hw).1, fun c hc => ?_⟩
      have h2 := (hlow w hw).2 c hc
      rw [Bool.or_eq_true] at h2
      rcases h2 with h2 | h2
      · simp [isAlnum_of_isLl h2]
      · simp [isAlnum_of_isN h2]
  rw [kebabCore_words (kebabCore l), hsep, hruns,
    map_lowerWord_id (fun u hu => (hlow u hu).2), ← kebabCore_words l]

/-- Claim C10: for every string input, the kebab output contains only lowercase
letters, digits, and hyphens; it never begins or ends with a hyphen; and it never
contains two consecutive hyphens. -/
theorem kebab_output_shape (s : String) :
    (∀ c ∈ (ChainPrompt.toKebabCaseStr s).data,
      (isLl c || isN c || decide (c = '-')) = true) ∧
    pairFree hyphenPair (ChainPrompt.toKebabCaseStr s).data = true ∧
    (∀ c, (ChainPrompt.toKebabCaseStr s).data.head? = some c → ¬ c = '-') ∧
    (∀ c, (ChainPrompt.toKebabCaseStr s).data.getLast? = some c → ¬ c = '-') :=
  kebabCore_shape s.data

/-- Witness for C10 at the input "Hello World": the first character of the output
"hello-world" is a lowercase letter and not a hyphen. -/
theorem kebab_output_shape_witness :
    (isLl 'h' || isN 'h' || decide ('h' = '-')) = true ∧ ¬ 'h' = '-' := by
  constructor
  · exact (kebab_output_shape ("Hello World")).1 'h' (by decide)
  · exact (kebab_output_shape ("Hello World")).2.2.1 'h' (by decide)

/-!  ## The dot pipeline is idempotent  -/

theorem dotChar_facts {c : Char} (h : (isLl c || isN c || decide (c = '.')) = true) :
    isJsWs c = false ∧ nfkdChar c = [c] ∧ isM c = false ∧ isLu c = false := by
  have hn : (97 ≤ c.toNat ∧ c.toNat ≤ 122) ∨ (48 ≤ c.toNat ∧ c.toNat ≤ 57) ∨
      c.toNat = 46 := by
    rw [Bool.or_eq_true, Bool.or_eq_true] at h
    rcases h with (h | h) | h
    · rw [isLl_iff] at h
      exact Or.inl h
    · rw [isN_iff] at h
      exact Or.inr (Or.inl h)
    · have hc := of_decide_eq_true h
      subst hc
      exact Or.inr (Or.inr (by decide))
  refine ⟨?_, nfkdChar_id_of_lt (by omega), ?_, ?_⟩
  · rw [Bool.eq_false_iff]
    intro hw
    rw [isJsWs_iff] at hw
    omega
  · rw [Bool.eq_false_iff]
    intro hw
    rw [isM_iff] at hw
    omega
  · rw [Bool.eq_false_iff]
    intro hw
    rw [isLu_iff] at hw
    omega

theorem isL_jsToLower (c : Char) : isL (jsToLower c) = isL c := by
  by_cases hu : isLu c = true
  · have h1 : isLl (jsToLower c) = true := isLl_jsToLower_of_isLu hu
    rw [show isL (jsToLower c) = true by rw [isL, h1]; simp,
      show isL c = true by rw [isL, hu]; simp]
  · rw [jsToLower_of_not_isLu (Bool.eq_false_iff.mpr hu)]

theorem isN_jsToLower (c : Char) : isN (jsToLower c) = isN c := by
  by_cases hu : isLu c = true
  · have h1 := jsToLower_of_isLu hu
    rw [isLu_iff] at hu
    have h2 : isN (jsToLower c) = false := by
      rw [Bool.eq_false_iff]
      intro hx
      rw [isN_iff, h1] at hx
      omega
    have h3 : isN c = false := by
      rw [Bool.eq_false_iff]
      intro hx
      rw [isN_iff] at hx
      omega
    rw [h2, h3]
  · rw [jsToLower_of_not_isLu (Bool.eq_false_iff.mpr hu)]

theorem letterDigitPair_lower (a b : Char) :
    letterDigitPair (jsToLower a) (jsToLower b) = letterDigitPair a b := by
  rw [letterDigitPair, letterDigitPair, isL_jsToLower, isN_jsToLower]

theorem digitLetterPair_lower (a b : Char) :
    digitLetterPair (jsToLower a) (jsToLower b) = digitLetterPair a b := by
  rw [digitLetterPair, digitLetterPair, isL_jsToLower, isN_jsToLower]

theorem pairFree_map {t : Char → Char → Bool} {f : Char → Char}
    (hf : ∀ a b, t (f a) (f b) = t a b) :
    ∀ l : List Char, pairFree t l = true → pairFree t (l.map f) = true := by
  apply twoStepInduction
  · intro _
    rfl
  · intro c _
    rfl
  · intro a b rest _ ih2 hp
    rw [List.map_cons, List.map_cons]
    refine pairFree_cons ?_ ?_
    · rw [← List.map_cons]
      exact ih2 (pairFree_tail hp)
    · intro x hx
      rw [List.head?_cons, Option.some_inj] at hx
      rw [← hx, hf]
      exact pairFree_head hp

theorem space_not_L : isL ' ' = false := by decide

theorem space_not_N : isN ' ' = false := by decide

theorem dotchar_not_L : isL '.' = false := by decide

theorem dotchar_not_N : isN '.' = false := by decide

theorem isL_eq_false_of_isN {c : Char} (h : isN c = true) : isL c = false := by
  rw [isN_iff] at h
  rw [Bool.eq_false_iff]
  intro hx
  rw [isL_iff] at hx
  omega

/-- The camel/dot boundary passes leave no letter-digit and no digit-letter
adjacency in the marked text. -/
theorem camelSepText_pairFree (l : List Char) :
    pairFree letterDigitPair (camelSepText l) = true ∧
    pairFree digitLetterPair (camelSepText l) = true := by
  rw [camelSepText]
  constructor
  · apply sepPair_preserves_pairFree
    · intro x
      rw [letterDigitPair, space_not_N]
      simp
    · intro x
      rw [letterDigitPair, space_not_L]
      simp
    · apply sepPair_pairFree
      · intro x
        rw [letterDigitPair, space_not_N]
        simp
      · intro x
        rw [letterDigitPair, space_not_L]
        simp
      · intro a b c hab
        rw [letterDigitPair] at hab
        rw [Bool.and_eq_true] at hab
        rw [letterDigitPair, isL_eq_false_of_isN hab.2]
        simp
  · apply sepPair_pairFree
    · intro x
      rw [digitLetterPair, space_not_L]
      simp
    · intro x
      rw [digitLetterPair, space_not_N]
      simp
    · intro a b c hab
      rw [digitLetterPair] at hab
      rw [Bool.and_eq_true] at hab
      rw [digitLetterPair, isN_eq_false_of_isL hab.2]
      simp

theorem dotCore_chars (l : List Char) :
    ∀ c ∈ dotCore l, (isLl c || isN c || decide (c = '.')) = true := by
  rw [dotCore_eq]
  have hlow := lowWords_facts (alnumRuns_words (camelSepText l))
  intro c hc
  refine joinSep_mem (Q := fun c => (isLl c || isN c || decide (c = '.')) = true) _ ?_
    (by simp) c hc
  intro w hw c2 hc2
  rw [Bool.or_eq_true]
  exact Or.inl ((hlow w hw).2 c2 hc2)

theorem dotCore_pairFree (l : List Char) :
    pairFree letterDigitPair (dotCore l) = true ∧
    pairFree digitLetterPair (dotCore l) = true := by
  rw [dotCore_eq]
  have hlow := lowWords_facts (alnumRuns_words (camelSepText l))
  have hword : ∀ t : Char → Char → Bool, pairFree t (camelSepText l) = true →
      (∀ a b, t (jsToLower a) (jsToLower b) = t a b) →
      ∀ u ∈ (alnumRuns (camelSepText l)).map lowerWord, pairFree t u = true := by
    intro t ht hmap u hu
    rw [List.mem_map] at hu
    obtain ⟨w, hw, rfl⟩ := hu
    exact pairFree_map hmap w (splitByAux_pairFree (camelSepText l) [] ht w hw)
  constructor
  · apply joinSep_pairFree _ (fun u hu => (hlow u hu).1)
      (hword letterDigitPair (camelSepText_pairFree l).1 letterDigitPair_lower)
    · intro u _ a _
      rw [letterDigitPair, dotchar_not_N]
      simp
    · intro u _ b _
      rw [letterDigitPair, dotchar_not_L]
      simp
  · apply joinSep_pairFree _ (fun u hu => (hlow u hu).1)
      (hword digitLetterPair (camelSepText_pairFree l).2 digitLetterPair_lower)
    · intro u _ a _
      rw [digitLetterPair, dotchar_not_L]
      simp
    · intro u _ b _
      rw [digitLetterPair, dotchar_not_N]
      simp

theorem dotCore_fixpoint (l : List Char) : dotCore (dotCore l) = dotCore l := by
  have hchars := dotCore_chars l
  have hnorm : normalizeText (dotCore l) = dotCore l :=
    normalizeText_id (fun c hc => (dotChar_facts (hchars c hc)).1)
      (fun c hc => (dotChar_facts (hchars c hc)).2.1)
      (fun c hc => (dotChar_facts (hchars c hc)).2.2.1)
  have hnoupper : ∀ c ∈ dotCore l, isLu c = false :=
    fun c hc => (dotChar_facts (hchars c hc)).2.2.2
  have hsep : camelSepText (dotCore l) = dotCore l := by
    rw [camelSepText, hnorm, sepLowerUpper,
      sepPair_id_of_pairFree (pairFree_of_forall (fun a _ b hb => by
        rw [lowerUpperPair, hnoupper b hb]
        simp)),
      sepLetterDigit, sepPair_id_of_pairFree (dotCore_pairFree l).1,
      sepDigitLetter, sepPair_id_of_pairFree (dotCore_pairFree l).2]
  have hlow := lowWords_facts (alnumRuns_words (camelSepText l))
  have hruns : alnumRuns (dotCore l) = (alnumRuns (camelSepText l)).map lowerWord := by
    rw [dotCore_eq l, alnumRuns]
    apply splitBy_joinSep
    · simp [dot_not_alnum]
    · intro w hw
      refine ⟨(hlow w hw).1, fun c hc => ?_⟩
      have h2 := (hlow w hw).2 c hc
      rw [Bool.or_eq_true] at h2
      rcases h2 with h2 | h2
      · simp [isAlnum_of_isLl h2]
      · simp [isAlnum_of_isN h2]
  rw [dotCore_eq (dotCore l), hsep, hruns,
    map_lowerWord_id (fun u hu => (hlow u hu).2), ← dotCore_eq l]

/-- Claim C8: the kebab and dot pipelines are idempotent: applying `toKebabCase` to
its own output, or `toDotCase` to its own output, changes nothing. -/
theorem kebab_dot_idempotent (s : String) :
    ChainPrompt.toKebabCaseStr (ChainPrompt.toKebabCaseStr s) =
      ChainPrompt.toKebabCaseStr s ∧
    RefinedPrompt.toDotCaseStr (RefinedPrompt.toDotCaseStr s) =
      RefinedPrompt.toDotCaseStr s := by
  constructor
  · show (⟨kebabCore (kebabCore s.data)⟩ : String) = ⟨kebabCore s.data⟩
    rw [kebabCore_fixpoint]
  · show (⟨dotCore (dotCore s.data)⟩ : String) = ⟨dotCore s.data⟩
    rw [dotCore_fixpoint]

/-!  ## Trimming as an inner segment of the input  -/

theorem jsTrim_eq_decomp (l : List Char) :
    l = l.takeWhile isJsWs ++
      (jsTrim l ++ ((l.dropWhile isJsWs).reverse.takeWhile isJsWs).reverse) := by
  rw [jsTrim]
  conv_lhs => rw [← List.takeWhile_append_dropWhile (p := isJsWs) (l := l)]
  congr 1
  conv_lhs => rw [← List.reverse_reverse (List.dropWhile isJsWs l),
    ← List.takeWhile_append_dropWhile (p := isJsWs)
      (l := (List.dropWhile isJsWs l).reverse), List.reverse_append]

theorem pairFree_jsTrim {t : Char → Char → Bool} {l : List Char}
    (h : pairFree t l = true) : pairFree t (jsTrim l) = true := by
  rw [jsTrim_eq_decomp l] at h
  exact pairFree_append_left _ _ (pairFree_append_right _ _ h)

theorem jsTrim_mem {l : List Char} : ∀ c ∈ jsTrim l, c ∈ l := by
  intro c hc
  rw [jsTrim_eq_decomp l, List.mem_append, List.mem_append]
  exact Or.inr (Or.inl hc)

/-!  ## The acronym pass without adjacent uppercase letters  -/

theorem sepAcronym_id_of_pairFree :
    ∀ l : List Char, pairFree upperUpperPair l = true → sepAcronym l = l := by
  have key : ∀ l : List Char,
      (pairFree upperUpperPair l = true → sepAcronymAux [] l = l) ∧
      (∀ r, isLu r = true → (∀ b, l.head? = some b → isLu b = false) →
        pairFree upperUpperPair l = true → sepAcronymAux [r] l = r :: l) := by
    intro l
    induction l with
    | nil =>
      refine ⟨fun _ => rfl, fun r _ _ _ => rfl⟩
    | cons c cs ih =>
      constructor
      · intro hp
        rw [sepAcronymAux_cons]
        by_cases hu : isLu c = true
        · rw [if_pos hu]
          apply ih.2 c hu
          · intro b hb
            have h2 := pairFree_head_of_head? hp hb
            rw [upperUpperPair, hu] at h2
            simpa using h2
          · exact pairFree_tail hp
        · rw [if_neg hu, if_neg (by simp), List.reverse_nil, List.nil_append,
            ih.1 (pairFree_tail hp)]
      · intro r hr hhead hp
        rw [sepAcronymAux_cons]
        have hu : isLu c = false := hhead c rfl
        rw [if_neg (by simp [hu]), if_neg (by simp), List.reverse_cons, List.reverse_nil,
          List.nil_append, List.singleton_append, ih.1 (pairFree_tail hp)]
  intro l hp
  exact (key l).1 hp

/-!  ## Letter/digit runs depend only on the alphanumeric abstraction  -/

theorem abstAlnum_nil : abstAlnum [] = [] := rfl

theorem abstAlnum_cons (c : Char) (cs : List Char) :
    abstAlnum (c :: cs) = (if isAlnum c then some c else none) :: abstAlnum cs := rfl

theorem splitByAux_abst :
    ∀ (l1 l2 cur : List Char), abstAlnum l1 = abstAlnum l2 →
      splitByAux (fun c => !isAlnum c) cur l1 = splitByAux (fun c => !isAlnum c) cur l2 := by
  intro l1
  induction l1 with
  | nil =>
    intro l2 cur h
    rw [abstAlnum_nil] at h
    have h2 : l2 = [] := by
      rw [abstAlnum] at h
      exact List.map_eq_nil_iff.mp h.symm
    rw [h2]
  | cons c cs ih =>
    intro l2 cur h
    cases l2 with
    | nil => exact absurd h (by simp [abstAlnum_cons, abstAlnum_nil])
    | cons d ds =>
      rw [abstAlnum_cons, abstAlnum_cons] at h
      have hh := List.cons_eq_cons.mp h
      by_cases ha : isAlnum c = true
      · rw [if_pos ha] at hh
        by_cases hd : isAlnum d = true
        · rw [if_pos hd] at hh
          have hcd : c = d := Option.some_inj.mp hh.1
          subst hcd
          rw [splitByAux_cons, splitByAux_cons,
            if_neg (show ¬ ((!isAlnum c) = true) by simp [ha]),
            if_neg (show ¬ ((!isAlnum c) = true) by simp [ha])]
          exact ih ds (c :: cur) hh.2
        · rw [if_neg hd] at hh
          exact absurd hh.1 (by simp)
      · have ha2 : isAlnum c = false := Bool.eq_false_iff.mpr ha
        rw [if_neg ha] at hh
        by_cases hd : isAlnum d = true
        · rw [if_pos hd] at hh
          exact absurd hh.1 (by simp)
        · have hd2 : isAlnum d = false := Bool.eq_false_iff.mpr hd
          rw [splitByAux_cons, splitByAux_cons,
            if_pos (show ((!isAlnum c) = true) by simp [ha2]),
            if_pos (show ((!isAlnum d) = true) by simp [hd2]), ih ds []]
          exact hh.2

theorem sepPair_abst {t : Char → Char → Bool} {sep1 sep2 : Char}
    (h1 : isAlnum sep1 = false) (h2 : isAlnum sep2 = false) :
    ∀ l : List Char, abstAlnum (sepPair t sep1 l) = abstAlnum (sepPair t sep2 l) := by
  apply twoStepInduction
  · rfl
  · intro c
    rfl
  · intro a b rest ih1 ih2
    rw [sepPair_cons_cons, sepPair_cons_cons]
    by_cases ht : t a b = true
    · rw [if_pos ht, if_pos ht, abstAlnum_cons, abstAlnum_cons, abstAlnum_cons,
        abstAlnum_cons, abstAlnum_cons, abstAlnum_cons, ih1,
        if_neg (show ¬ (isAlnum sep1 = true) by simp [h1]),
        if_neg (show ¬ (isAlnum sep2 = true) by simp [h2])]
    · rw [if_neg ht, if_neg ht, abstAlnum_cons, abstAlnum_cons, ih2]

/-!  ## The splitter under a pointwise-equal predicate, and its words' characters  -/

theorem splitByAux_congr {p q : Char → Bool} (h : ∀ c, p c = q c) :
    ∀ l cur : List Char, splitByAux p cur l = splitByAux q cur l := by
  intro l
  induction l with
  | nil => intro cur; rfl
  | cons c cs ih =>
    intro cur
    rw [splitByAux_cons, splitByAux_cons, h c, ih [], ih (c :: cur)]

theorem splitByAux_mem_subset {p : Char → Bool} :
    ∀ (l cur : List Char), ∀ w ∈ splitByAux p cur l, ∀ c ∈ w, c ∈ cur ∨ c ∈ l := by
  intro l
  induction l with
  | nil =>
    intro cur w hw c hc
    rw [splitByAux_nil] at hw
    by_cases hcur : cur = []
    · rw [if_pos hcur] at hw
      exact absurd hw (by simp)
    · rw [if_neg hcur, List.mem_singleton] at hw
      subst hw
      exact Or.inl (List.mem_reverse.mp hc)
  | cons a cs ih =>
    intro cur w hw c hc
    rw [splitByAux_cons] at hw
    by_cases hp : p a = true
    · rw [if_pos hp] at hw
      by_cases hcur : cur = []
      · rw [if_pos hcur] at hw
        rcases ih [] w hw c hc with h | h
        · exact absurd h (by simp)
        · exact Or.inr (List.mem_cons_of_mem a h)
      · rw [if_neg hcur, List.mem_cons] at hw
        rcases hw with hw | hw
        · subst hw
          exact Or.inl (List.mem_reverse.mp hc)
        · rcases ih [] w hw c hc with h | h
          · exact absurd h (by simp)
          · exact Or.inr (List.mem_cons_of_mem a h)
    · rw [if_neg hp] at hw
      rcases ih (a :: cur) w hw c hc with h | h
      · rw [List.mem_cons] at h
        rcases h with h | h
        · exact Or.inr (h ▸ List.mem_cons_self _ _)
        · exact Or.inl h
      · exact Or.inr (List.mem_cons_of_mem a h)

/-!  ## JavaScript split against the joined words  -/

theorem jsSplitChar_ne_nil (sep : Char) : ∀ l : List Char, jsSplitChar sep l ≠ [] := by
  intro l
  cases l with
  | nil => simp [jsSplitChar]
  | cons c cs =>
    rw [jsSplitChar]
    by_cases hc : c = sep
    · rw [if_pos hc]
      simp
    · rw [if_neg hc]
      simp

theorem jsSplitChar_cons_sep (sep : Char) (r : List Char) :
    jsSplitChar sep (sep :: r) = [] :: jsSplitChar sep r := by
  rw [jsSplitChar, if_pos rfl]

theorem jsSplitChar_append_word {sep : Char} :
    ∀ (w : List Char), (∀ c ∈ w, ¬ c = sep) → ∀ r : List Char,
      jsSplitChar sep (w ++ r) =
        (w ++ (jsSplitChar sep r).headD []) :: (jsSplitChar sep r).tail := by
  intro w
  induction w with
  | nil =>
    intro _ r
    rw [List.nil_append, List.nil_append]
    cases hr : jsSplitChar sep r with
    | nil => exact absurd hr (jsSplitChar_ne_nil sep r)
    | cons x xs => rfl
  | cons c w2 ih =>
    intro h r
    rw [List.cons_append, jsSplitChar, if_neg (h c (by simp))]
    rw [ih (fun x hx => h x (List.mem_cons_of_mem c hx)) r]
    simp

theorem jsSplitChar_joinSep {sep : Char} :
    ∀ ws : List (List Char), (∀ w ∈ ws, w ≠ [] ∧ ∀ c ∈ w, ¬ c = sep) →
      jsSplitChar sep (joinSep sep ws) = if ws = [] then [[]] else ws := by
  intro ws
  induction ws with
  | nil =>
    intro _
    rfl
  | cons w ws2 ih =>
    intro h
    rw [if_neg (by simp)]
    cases ws2 with
    | nil =>
      have hj : joinSep sep [w] = w ++ [] := by simp [joinSep]
      rw [hj, jsSplitChar_append_word w (h w (by simp)).2 []]
      simp [jsSplitChar]
    | cons w2 ws3 =>
      rw [joinSep_cons (by simp), jsSplitChar_append_word w (h w (by simp)).2,
        jsSplitChar_cons_sep]
      rw [ih (fun u hu => h u (List.mem_cons_of_mem w hu)), if_neg (by simp)]
      simp

/-!  ## Claim C4, amended  -/

theorem c4Char_facts {c : Char}
    (h : (isLl c || isLu c || decide (c = ' ') || decide (c = '-') ||
      decide (c = '_')) = true) :
    nfkdChar c = [c] ∧ isM c = false ∧ isN c = false := by
  have hn : (97 ≤ c.toNat ∧ c.toNat ≤ 122) ∨ (65 ≤ c.toNat ∧ c.toNat ≤ 90) ∨
      c.toNat = 32 ∨ c.toNat = 45 ∨ c.toNat = 95 := by
    rw [Bool.or_eq_true, Bool.or_eq_true, Bool.or_eq_true, Bool.or_eq_true] at h
    rcases h with (((h | h) | h) | h) | h
    · rw [isLl_iff] at h
      exact Or.inl h
    · rw [isLu_iff] at h
      exact Or.inr (Or.inl h)
    · have hc := of_decide_eq_true h
      subst hc
      exact Or.inr (Or.inr (Or.inl (by decide)))
    · have hc := of_decide_eq_true h
      subst hc
      exact Or.inr (Or.inr (Or.inr (Or.inl (by decide))))
    · have hc := of_decide_eq_true h
      subst hc
      exact Or.inr (Or.inr (Or.inr (Or.inr (by decide))))
  refine ⟨nfkdChar_id_of_lt (by omega), ?_, ?_⟩
  · rw [Bool.eq_false_iff]
    intro hw
    rw [isM_iff] at hw
    omega
  · rw [Bool.eq_false_iff]
    intro hw
    rw [isN_iff] at hw
    omega

theorem ne_of_alnum_of_not {c d : Char} (hc : isAlnum c = true)
    (hd : isAlnum d = false) : ¬ c = d := by
  intro h
  subst h
  rw [hc] at hd
  cases hd

theorem ne_dot_of_low {c : Char} (h : (isLl c || isN c) = true) : ¬ c = '.' := by
  rw [Bool.or_eq_true] at h
  rcases h with h | h
  · exact ne_of_alnum_of_not (isAlnum_of_isLl h) dot_not_alnum
  · exact ne_of_alnum_of_not (isAlnum_of_isN h) dot_not_alnum

/-- Claim C4 (amended): on strings of ASCII letters, spaces, hyphens and underscores
with no two adjacent uppercase letters — so that neither the acronym rule (kebab
only) nor the letter/digit rules (camel/dot only) can fire — splitting the kebab
output on hyphens and the dot output on dots yields the same word sequence.  On
general inputs the two partitions differ (see the counterexample). -/
theorem kebab_dot_partition_agree (s : String)
    (hchars : ∀ c ∈ s.data, (isLl c || isLu c || decide (c = ' ') ||
      decide (c = '-') || decide (c = '_')) = true)
    (hup : pairFree upperUpperPair s.data = true) :
    jsSplitChar '-' (ChainPrompt.toKebabCaseStr s).data =
      jsSplitChar '.' (RefinedPrompt.toDotCaseStr s).data := by
  have htr : ∀ c ∈ jsTrim s.data, (isLl c || isLu c || decide (c = ' ') ||
      decide (c = '-') || decide (c = '_')) = true :=
    fun c hc => hchars c (jsTrim_mem c hc)
  have hnorm : normalizeText s.data = jsTrim s.data := by
    rw [normalizeText, nfkd_id (fun c hc => (c4Char_facts (htr c hc)).1),
      stripMarks_id (fun c hc => (c4Char_facts (htr c hc)).2.1)]
  have hnoN : ∀ c ∈ jsTrim s.data, isN c = false :=
    fun c hc => (c4Char_facts (htr c hc)).2.2
  have hrunsEq : alnumRuns (kebabSepText s.data) = alnumRuns (camelSepText s.data) := by
    rw [kebabSepText, camelSepText, hnorm]
    have hupT : pairFree upperUpperPair (jsTrim s.data) = true := pairFree_jsTrim hup
    have hupSep : pairFree upperUpperPair (sepLowerUpper '-' (jsTrim s.data)) = true := by
      rw [sepLowerUpper]
      apply sepPair_preserves_pairFree _ _ _ hupT
      · intro x
        rw [upperUpperPair, show isLu '-' = false by decide]
        simp
      · intro x
        rw [upperUpperPair, show isLu '-' = false by decide]
        simp
    rw [sepAcronym_id_of_pairFree _ hupSep]
    have hnoN2 : ∀ c ∈ sepLowerUpper ' ' (jsTrim s.data), isN c = false := by
      intro c hc
      rw [sepLowerUpper] at hc
      exact sepPair_mem (Q := fun c => isN c = false) hnoN (by decide) c hc
    rw [sepLetterDigit, sepPair_id_of_pairFree (pairFree_of_forall
      (fun a _ b hb => by
        rw [letterDigitPair, hnoN2 b hb]
        simp))]
    rw [sepDigitLetter, sepPair_id_of_pairFree (pairFree_of_forall
      (fun a ha _ _ => by
        rw [digitLetterPair, hnoN2 a ha]
        simp))]
    rw [alnumRuns, alnumRuns]
    apply splitByAux_abst
    rw [sepLowerUpper, sepLowerUpper]
    exact sepPair_abst hyphen_not_alnum (show isAlnum ' ' = false by decide)
      (jsTrim s.data)
  have hk : (ChainPrompt.toKebabCaseStr s).data =
      joinSep '-' ((alnumRuns (kebabSepText s.data)).map lowerWord) :=
    kebabCore_words s.data
  have hd : (RefinedPrompt.toDotCaseStr s).data =
      joinSep '.' ((alnumRuns (camelSepText s.data)).map lowerWord) :=
    dotCore_eq s.data
  rw [hk, hd, hrunsEq]
  have hlow := lowWords_facts (alnumRuns_words (camelSepText s.data))
  rw [jsSplitChar_joinSep _ (fun w hw => ⟨(hlow w hw).1,
    fun c hc => ne_hyphen_of_low ((hlow w hw).2 c hc)⟩)]
  rw [jsSplitChar_joinSep _ (fun w hw => ⟨(hlow w hw).1,
    fun c hc => ne_dot_of_low ((hlow w hw).2 c hc)⟩)]

/-- Witness for C4's amended theorem at "Hello World": both the kebab and the dot
pipelines split it into the same two words. -/
theorem kebab_dot_partition_agree_witness :
    jsSplitChar '-' (ChainPrompt.toKebabCaseStr ("Hello World")).data =
      jsSplitChar '.' (RefinedPrompt.toDotCaseStr ("Hello World")).data :=
  kebab_dot_partition_agree ("Hello World") (by decide) (by decide)

/-!  ## Claim C9, amended  -/

theorem c9Char_facts {c : Char}
    (h : (isLl c || decide (c = '_') || decide (c = ' ')) = true) :
    nfkdChar c = [c] ∧ isM c = false ∧ isN c = false ∧ isLu c = false := by
  have hn : (97 ≤ c.toNat ∧ c.toNat ≤ 122) ∨ c.toNat = 95 ∨ c.toNat = 32 := by
    rw [Bool.or_eq_true, Bool.or_eq_true] at h
    rcases h with (h | h) | h
    · rw [isLl_iff] at h
      exact Or.inl h
    · have hc := of_decide_eq_true h
      subst hc
      exact Or.inr (Or.inl (by decide))
    · have hc := of_decide_eq_true h
      subst hc
      exact Or.inr (Or.inr (by decide))
  refine ⟨nfkdChar_id_of_lt (by omega), ?_, ?_, ?_⟩
  · rw [Bool.eq_false_iff]
    intro hw
    rw [isM_iff] at hw
    omega
  · rw [Bool.eq_false_iff]
    intro hw
    rw [isN_iff] at hw
    omega
  · rw [Bool.eq_false_iff]
    intro hw
    rw [isLu_iff] at hw
    omega

theorem renderFewShot_eq_renderCamel {ws : List (List Char)}
    (h : ∀ w ∈ ws, ∀ c ∈ w, isLl c = true) : renderFewShot ws = renderCamel ws := by
  cases ws with
  | nil => rfl
  | cons w ws2 =>
    rw [renderFewShot, renderCamel]
    congr 1
    congr 1
    apply List.map_congr_left
    intro u hu
    cases u with
    | nil => rfl
    | cons c cs =>
      have hc : isLl c = true := h (c :: cs) (List.mem_cons_of_mem w hu) c (by simp)
      have hnN : isN c = false := by
        rw [Bool.eq_false_iff]
        intro hx
        rw [isN_iff] at hx
        rw [isLl_iff] at hc
        omega
      show capFirst (lowerWord (c :: cs)) = capitalize (c :: cs)
      rw [lowerWord, List.map_cons, jsToLower_of_isLl hc]
      show jsToUpper c :: List.map jsToLower cs = capitalize (c :: cs)
      rw [capitalize, if_neg (show ¬ (isN c = true) by simp [hnN])]
      rfl

/-- Claim C9 (amended): on strings made of lowercase ASCII letters, underscores and
spaces the two `toCamelCase` implementations compute the same result; on general
inputs they differ (see the counterexample at "version2alpha"). -/
theorem camel_impls_agree_on_lower (s : String)
    (hchars : ∀ c ∈ s.data, (isLl c || decide (c = '_') || decide (c = ' ')) = true) :
    FewShotPrompt.toCamelCaseStr s = RefinedPrompt.toCamelCaseStr s := by
  show (⟨fewShotCamelCore s.data⟩ : String) = ⟨camelCore s.data⟩
  congr 1
  have htr : ∀ c ∈ jsTrim s.data,
      (isLl c || decide (c = '_') || decide (c = ' ')) = true :=
    fun c hc => hchars c (jsTrim_mem c hc)
  have hT : camelSepText s.data = jsTrim s.data := by
    rw [camelSepText, normalizeText,
      nfkd_id (fun c hc => (c9Char_facts (htr c hc)).1),
      stripMarks_id (fun c hc => (c9Char_facts (htr c hc)).2.1)]
    rw [sepLowerUpper, sepPair_id_of_pairFree (pairFree_of_forall
      (fun a _ b hb => by
        rw [lowerUpperPair, (c9Char_facts (htr b hb)).2.2.2]
        simp))]
    rw [sepLetterDigit, sepPair_id_of_pairFree (pairFree_of_forall
      (fun a _ b hb => by
        rw [letterDigitPair, (c9Char_facts (htr b hb)).2.2.1]
        simp))]
    rw [sepDigitLetter, sepPair_id_of_pairFree (pairFree_of_forall
      (fun a ha _ _ => by
        rw [digitLetterPair, (c9Char_facts (htr a ha)).2.2.1]
        simp))]
  have hparts : splitNonAlnumAscii (jsTrim s.data) = alnumRuns (jsTrim s.data) := by
    rw [splitNonAlnumAscii, alnumRuns]
    exact splitByAux_congr (fun c => by rw [isAsciiAlnum_eq_isAlnum c]) _ []
  have hwordsLl : ∀ w ∈ alnumRuns (jsTrim s.data), ∀ c ∈ w, isLl c = true := by
    intro w hw c hc
    have halnum := (alnumRuns_words _ w hw).2 c hc
    have hmem : c ∈ jsTrim s.data := by
      rcases splitByAux_mem_subset _ [] w hw c hc with hm | hm
      · exact absurd hm (by simp)
      · exact hm
    have hclass := htr c hmem
    rw [Bool.or_eq_true, Bool.or_eq_true] at hclass
    rcases hclass with (h1 | h1) | h1
    · exact h1
    · have h2 := of_decide_eq_true h1
      subst h2
      exact absurd halnum (by decide)
    · have h2 := of_decide_eq_true h1
      subst h2
      exact absurd halnum (by decide)
  by_cases ht : jsTrim s.data = []
  · have h1 : fewShotCamelCore s.data = [] := by
      simp only [fewShotCamelCore]
      rw [if_pos ht]
    rw [h1, camelCore_eq, hT, ht]
    rfl
  · have h1 : fewShotCamelCore s.data =
        (match splitNonAlnumAscii (jsTrim s.data) with
          | [] => []
          | [w] => (match w with | [] => [] | c :: cs => jsToLower c :: cs)
          | parts => renderFewShot parts) := by
      simp only [fewShotCamelCore]
      rw [if_neg ht]
    rw [h1, hparts, camelCore_eq, hT]
    cases hr : alnumRuns (jsTrim s.data) with
    | nil => rfl
    | cons w parts2 =>
      cases parts2 with
      | nil =>
        have hw : ∀ c ∈ w, isLl c = true := by
          intro c hc
          refine hwordsLl w ?_ c hc
          rw [hr]
          exact List.mem_cons_self _ _
        cases w with
        | nil => rfl
        | cons c cs =>
          have hc : isLl c = true := hw c (by simp)
          show jsToLower c :: cs = renderCamel [c :: cs]
          have h2 : renderCamel [c :: cs] = lowerWord (c :: cs) := by
            rw [renderCamel]
            simp
          rw [jsToLower_of_isLl hc, h2,
            lowerWord_id (fun x hx => by rw [hw x hx]; simp)]
      | cons w2 rest =>
        refine renderFewShot_eq_renderCamel (fun u hu => hwordsLl u ?_)
        rw [hr]
        exact hu

/-- Witness for C9's amended theorem at the concrete input "user_id". -/
theorem camel_impls_agree_on_lower_witness :
    FewShotPrompt.toCamelCaseStr ("user_id") = RefinedPrompt.toCamelCaseStr ("user_id") :=
  camel_impls_agree_on_lower ("user_id") (by decide)

/-!  ## Claim C6: no combining marks survive any pipeline  -/

theorem capitalize_mem {u : List Char} (h : ∀ c ∈ u, isAlnum c = true) :
    ∀ c ∈ capitalize u, isAlnum c = true := by
  cases u with
  | nil =>
    intro c hc
    exact absurd hc (by simp [capitalize])
  | cons a cs =>
    intro c hc
    rw [capitalize] at hc
    by_cases hn : isN a = true
    · rw [if_pos hn, List.mem_cons] at hc
      rcases hc with hc | hc
      · exact hc ▸ h a (by simp)
      · rw [lowerWord, List.mem_map] at hc
        obtain ⟨x, hx, rfl⟩ := hc
        exact isAlnum_jsToLower (h x (List.mem_cons_of_mem a hx))
    · rw [if_neg hn, List.mem_cons] at hc
      rcases hc with hc | hc
      · exact hc ▸ isAlnum_jsToUpper (h a (by simp))
      · rw [lowerWord, List.mem_map] at hc
        obtain ⟨x, hx, rfl⟩ := hc
        exact isAlnum_jsToLower (h x (List.mem_cons_of_mem a hx))

theorem renderCamel_mem {ws : List (List Char)}
    (h : ∀ w ∈ ws, ∀ c ∈ w, isAlnum c = true) :
    ∀ c ∈ renderCamel ws, isAlnum c = true := by
  cases ws with
  | nil =>
    intro c hc
    exact absurd hc (by simp [renderCamel])
  | cons w ws2 =>
    intro c hc
    rw [renderCamel, List.mem_append] at hc
    rcases hc with hc | hc
    · rw [lowerWord, List.mem_map] at hc
      obtain ⟨x, hx, rfl⟩ := hc
      exact isAlnum_jsToLower (h w (by simp) x hx)
    · rw [List.mem_flatten] at hc
      obtain ⟨u, hu, hcu⟩ := hc
      rw [List.mem_map] at hu
      obtain ⟨w2, hw2, rfl⟩ := hu
      exact capitalize_mem (h w2 (List.mem_cons_of_mem w hw2)) c hcu

theorem camelCore_chars (l : List Char) : ∀ c ∈ camelCore l, isAlnum c = true := by
  rw [camelCore_eq]
  exact renderCamel_mem (fun w hw => (alnumRuns_words _ w hw).2)

/-- Claim C6: the normalizer applies NFKD and strips all combining marks, so no
conversion output ever contains a combining mark, and precomposed accented letters
become their base letters: toKebabCase("café au lait") = "cafe-au-lait". -/
theorem normalizer_strips_marks (s : String) :
    (∀ c ∈ (ChainPrompt.toKebabCaseStr s).data, isM c = false) ∧
    (∀ c ∈ (RefinedPrompt.toCamelCaseStr s).data, isM c = false) ∧
    (∀ c ∈ (RefinedPrompt.toDotCaseStr s).data, isM c = false) ∧
    ChainPrompt.toKebabCaseStr ("café au lait") = "cafe-au-lait" := by
  refine ⟨?_, ?_, ?_, by decide⟩
  · exact fun c hc => (kebabChar_facts ((kebabCore_shape s.data).1 c hc)).2.2.1
  · exact fun c hc => not_isM_of_isAlnum (camelCore_chars s.data c hc)
  · exact fun c hc => (dotChar_facts (dotCore_chars s.data c hc)).2.2.1

/-- Witness for C6: a character of the output of toKebabCase("café au lait") is not a
combining mark, and the accented example maps to its base-letter form. -/
theorem normalizer_strips_marks_witness :
    isM 'c' = false ∧ ChainPrompt.toKebabCaseStr ("café au lait") = "cafe-au-lait" := by
  constructor
  · exact (normalizer_strips_marks ("café au lait")).1 'c' (by decide)
  · exact (normalizer_strips_marks ("café au lait")).2.2.2

end CaseConv
